import Mathlib

/-!
# SAS pairing protocol (`main.go`): shallow embedding

The Go program keeps its parties and commitments behind pointers, and the
protocol works through aliasing (`the.other.commitment = p.commitment`
shares one commitment object between both parties).  The embedding therefore
carries an explicit heap: a pointer is `none` (Go `nil`) or the index of an
object in the heap.  Every operation threads the heap and returns a `Fault`
where the Go program would panic.

`crypto/aes` and `crypto/hmac`/`crypto/sha256` are library code: the block
encryption and the MAC are parameters (`Crypto`); the length checks that make
`aes.NewCipher` fail and `Encrypt` panic are modelled.
-/

namespace SAS

/-- A Go `byte`. -/
abbrev Byte := Fin 256

/-- A Go `[]byte` value.  The nil slice and the empty slice are both `[]`: the
program only takes `len`, ranges over, writes to a hash and passes on its
slices, and all of these treat the two alike. -/
abbrev Bytes := List Byte

/-- A Go pointer: `none` is `nil`, `some i` is the object at index `i`. -/
abbrev Ptr := Option Nat

/-- The ways a run of the program stops abnormally. -/
inductive Fault where
  /-- The Go runtime error for a nil pointer dereference. -/
  | nilDeref : Fault
  /-- An explicit `panic(s)`, here always `panic(err.Error())` or a library panic. -/
  | panic : String → Fault
  deriving DecidableEq, Repr

/-- The library functions, taken as parameters: `aesEncryptBlock key block` is
the AES encryption of one 16-byte block, `hmacSha256 key data` the HMAC-SHA256
digest of `data`. -/
structure Crypto where
  aesEncryptBlock : Bytes → Bytes → Bytes
  hmacSha256 : Bytes → Bytes → Bytes

/-- The constant `aes.BlockSize`. -/
def aesBlockSize : Nat := 16

/-! ## commitment -/

/-- The struct `commitment`. -/
structure commitment where
  message : Bytes
  isProtected : Bool
  deriving DecidableEq, Repr

/-- The text of the error built by `errors.New` in `open`. -/
def errProtected : String := "commitment is protected"

/-- Body of `(c *commitment) open()` on the struct the receiver points to: the
Go pair `([]byte, error)`, the error being `none` for `nil`. -/
def commitment.open (c : commitment) : Bytes × Option String :=
  if c.isProtected then
    ([], some errProtected)
  else
    (c.message, none)

/-- Body of `(c *commitment) decommit()` on the struct the receiver points to. -/
def commitment.decommit (c : commitment) : commitment :=
  { c with isProtected := false }

/-- The struct literal that `newCommitment` allocates. -/
def commitment.new (c : Bytes) : commitment :=
  { message := c, isProtected := true }

/-! ## person and the heap -/

/-- The struct `person`. -/
structure person where
  r : Bytes
  msg : Bytes
  commitment : Ptr
  other : Ptr
  deriving DecidableEq, Repr

/-- The zero value `person{}`. -/
def person.zero : person :=
  { r := [], msg := [], commitment := none, other := none }

/-- The heap: every allocated `person` and `commitment`, addressed by index. -/
structure Heap where
  persons : List person
  commitments : List commitment
  deriving DecidableEq, Repr

/-- The heap before anything is allocated. -/
def Heap.empty : Heap := { persons := [], commitments := [] }

/-- Dereference of a `*person`.  A Go pointer is nil or points to a live
object; an index outside the heap does not arise and is treated like nil. -/
def Heap.loadPerson (h : Heap) (p : Ptr) : Except Fault person :=
  match p with
  | none => .error .nilDeref
  | some i =>
    match h.persons[i]? with
    | none => .error .nilDeref
    | some v => .ok v

/-- Dereference of a `*commitment`. -/
def Heap.loadCommitment (h : Heap) (c : Ptr) : Except Fault commitment :=
  match c with
  | none => .error .nilDeref
  | some i =>
    match h.commitments[i]? with
    | none => .error .nilDeref
    | some v => .ok v

/-- Store through a `*person`. -/
def Heap.setPerson (h : Heap) (p : Ptr) (v : person) : Except Fault Heap :=
  match p with
  | none => .error .nilDeref
  | some i =>
    if i < h.persons.length then
      .ok { h with persons := h.persons.set i v }
    else
      .error .nilDeref

/-- Store through a `*commitment`. -/
def Heap.setCommitment (h : Heap) (c : Ptr) (v : commitment) : Except Fault Heap :=
  match c with
  | none => .error .nilDeref
  | some i =>
    if i < h.commitments.length then
      .ok { h with commitments := h.commitments.set i v }
    else
      .error .nilDeref

/-- Allocation `&person{...}`. -/
def Heap.allocPerson (h : Heap) (v : person) : Heap × Ptr :=
  ({ h with persons := h.persons ++ [v] }, some h.persons.length)

/-- Allocation `&commitment{...}`. -/
def Heap.allocCommitment (h : Heap) (v : commitment) : Heap × Ptr :=
  ({ h with commitments := h.commitments ++ [v] }, some h.commitments.length)

/-- The function `newCommitment`: allocates a protected commitment. -/
def Heap.newCommitment (h : Heap) (c : Bytes) : Heap × Ptr :=
  h.allocCommitment (commitment.new c)

/-- The method `(c *commitment) open()`, the receiver being a pointer. -/
def Heap.open (h : Heap) (c : Ptr) : Except Fault (Bytes × Option String) := do
  let v ← h.loadCommitment c
  pure v.open

/-- The method `(c *commitment) decommit()`, the receiver being a pointer. -/
def Heap.decommit (h : Heap) (c : Ptr) : Except Fault Heap := do
  let v ← h.loadCommitment c
  h.setCommitment c v.decommit

/-- The function `newPerson`.  `rnd` is what `rand.Read` wrote into the
`aes.BlockSize` bytes of `r`; `msg` is the bytes of the string argument. -/
def Heap.newPerson (h : Heap) (rnd : Bytes) (msg : Bytes) : Heap × Ptr :=
  let (h, o) := h.allocPerson person.zero
  h.allocPerson { r := rnd, msg := msg, commitment := none, other := o }

/-- The method `(p *person) commitTo(the *person)`. -/
def Heap.commitTo (h : Heap) (p the : Ptr) : Except Fault Heap := do
  -- p.commitment = newCommitment(p.r)
  let vp ← h.loadPerson p
  let (h, c) := h.newCommitment vp.r
  let h ← h.setPerson p { vp with commitment := c }
  -- the.other.commitment = p.commitment
  let vthe ← h.loadPerson the
  let vo ← h.loadPerson vthe.other
  let vp ← h.loadPerson p
  let h ← h.setPerson vthe.other { vo with commitment := vp.commitment }
  -- the.other.msg = p.msg
  let vthe ← h.loadPerson the
  let vo ← h.loadPerson vthe.other
  let vp ← h.loadPerson p
  h.setPerson vthe.other { vo with msg := vp.msg }

/-- The method `(p *person) sendTo(the *person)`. -/
def Heap.sendTo (h : Heap) (p the : Ptr) : Except Fault Heap := do
  -- the.other.msg = p.msg
  let vthe ← h.loadPerson the
  let vo ← h.loadPerson vthe.other
  let vp ← h.loadPerson p
  let h ← h.setPerson vthe.other { vo with msg := vp.msg }
  -- the.other.r = p.r
  let vthe ← h.loadPerson the
  let vo ← h.loadPerson vthe.other
  let vp ← h.loadPerson p
  h.setPerson vthe.other { vo with r := vp.r }

/-! ## crypto/aes and crypto/hmac -/

/-- The call `aes.NewCipher(key)`: a cipher (represented by its key) when the
key has 16, 24 or 32 bytes, else the text of the `KeySizeError`. -/
def aesNewCipher (key : Bytes) : Except String Bytes :=
  if key.length = 16 ∨ key.length = 24 ∨ key.length = 32 then
    .ok key
  else
    .error ("crypto/aes: invalid key size " ++ Nat.repr key.length)

/-- The call `c.Encrypt(dst, src)`: panics unless both slices hold a full
block, else encrypts the first block of `src` into the first block of `dst`.
The result is the new content of `dst`. -/
def aesEncrypt (cr : Crypto) (c : Bytes) (dst src : Bytes) : Except Fault Bytes :=
  if src.length < aesBlockSize then
    .error (.panic "crypto/aes: input not full block")
  else if dst.length < aesBlockSize then
    .error (.panic "crypto/aes: output not full block")
  else
    .ok (cr.aesEncryptBlock c (src.take aesBlockSize) ++ dst.drop aesBlockSize)

/-- The `hash.Hash` returned by `hmac.New(sha256.New, key)`: its key and the
bytes written to it so far. -/
structure HMAC where
  key : Bytes
  written : Bytes
  deriving DecidableEq, Repr

/-- The call `hmac.New(sha256.New, key)`. -/
def hmacNew (key : Bytes) : HMAC :=
  { key := key, written := [] }

/-- The method `Write` of the hash. -/
def HMAC.Write (m : HMAC) (p : Bytes) : HMAC :=
  { m with written := m.written ++ p }

/-- The call `Sum(nil)` of the hash: the digest of what was written. -/
def HMAC.Sum (cr : Crypto) (m : HMAC) : Bytes :=
  cr.hmacSha256 m.key m.written

/-! ## retrievePin -/

/-- The call `fmt.Sprintf("%d", n)` for a natural number `n`. -/
def sprintfD (n : Nat) : String :=
  Nat.repr n

/-- The `for _, b := range r` loop of `retrievePin`, `digitString` being the
string built so far.  The string only ever holds ASCII digits, so its Go `len`
(in bytes) is its number of characters.  `maxLength` is only compared, never
computed with, so the Go `int` is an `Int` here. -/
def retrievePinLoop (maxLength : Int) : Bytes → String → String
  | [], digitString => digitString
  | b :: rest, digitString =>
    let digitString := digitString ++ sprintfD (b.val % 10)
    if (digitString.length : Int) = maxLength then
      digitString
    else
      retrievePinLoop maxLength rest digitString

/-- The function `retrievePin`.  Its docstring in the source reads "returns a
pin of the specified length based on the given (random) bytes". -/
def retrievePin (r : Bytes) (maxLength : Int) : String :=
  retrievePinLoop maxLength r ""

/-! ## the two checks -/

/-- Lines 71-81 of `initiatorCheck`: everything up to the hash that `Sum` is
called on. -/
def Heap.initiatorMac (cr : Crypto) (h : Heap) (p : Ptr) : Except Fault HMAC := do
  let vp ← h.loadPerson p
  match aesNewCipher vp.r with
  | .error err => .error (.panic err)
  | .ok c =>
    let aKey := List.replicate aesBlockSize (0 : Byte)
    let vo ← h.loadPerson vp.other
    let aKey ← aesEncrypt cr c aKey vo.r
    let aCheck := hmacNew aKey
    let aCheck := aCheck.Write vp.msg
    let aCheck := aCheck.Write vo.msg
    pure aCheck

/-- The method `(p *person) initiatorCheck()`. -/
def Heap.initiatorCheck (cr : Crypto) (h : Heap) (p : Ptr) : Except Fault String := do
  let aCheck ← h.initiatorMac cr p
  pure (retrievePin (aCheck.Sum cr) 8)

/-- Lines 87-102 of `secondaryCheck`: everything up to the hash that `Sum` is
called on. -/
def Heap.secondaryMac (cr : Crypto) (h : Heap) (p : Ptr) : Except Fault HMAC := do
  let vp ← h.loadPerson p
  let vo ← h.loadPerson vp.other
  let (aRand, err) ← h.open vo.commitment
  match err with
  | some e => .error (.panic e)
  | none =>
    match aesNewCipher aRand with
    | .error err => .error (.panic err)
    | .ok c =>
      let bKey := List.replicate aesBlockSize (0 : Byte)
      let bKey ← aesEncrypt cr c bKey vp.r
      let bCheck := hmacNew bKey
      let bCheck := bCheck.Write vo.msg
      let bCheck := bCheck.Write vp.msg
      pure bCheck

/-- The method `(p *person) secondaryCheck()`. -/
def Heap.secondaryCheck (cr : Crypto) (h : Heap) (p : Ptr) : Except Fault String := do
  let bCheck ← h.secondaryMac cr p
  pure (retrievePin (bCheck.Sum cr) 8)

/-! ## the run of `main` -/

/-- The state of `main`: the heap and its two variables `alice` and `bob`. -/
structure MainState where
  heap : Heap
  alice : Ptr
  bob : Ptr
  deriving DecidableEq, Repr

/-- Lines 18-19 of `main`, started in the heap `h0`: the two calls of
`newPerson`.  `rA` and `rB` are the nonces drawn by `rand.Read`; `mA` and `mB`
are the messages (`"AlicePublicKey"` and `"BobPublicKey"` in `main`). -/
def mainSetup (h0 : Heap) (rA mA rB mB : Bytes) : MainState :=
  let (h, alice) := h0.newPerson rA mA
  let (h, bob) := h.newPerson rB mB
  { heap := h, alice := alice, bob := bob }

/-- Line 22 of `main`: `alice.commitTo(bob)`. -/
def MainState.commit (s : MainState) : Except Fault MainState := do
  let h ← s.heap.commitTo s.alice s.bob
  pure { s with heap := h }

/-- Line 25 of `main`: `bob.sendTo(alice)`. -/
def MainState.send (s : MainState) : Except Fault MainState := do
  let h ← s.heap.sendTo s.bob s.alice
  pure { s with heap := h }

/-- Line 28 of `main`: `alice.commitment.decommit()`. -/
def MainState.reveal (s : MainState) : Except Fault MainState := do
  let va ← s.heap.loadPerson s.alice
  let h ← s.heap.decommit va.commitment
  pure { s with heap := h }

/-- Lines 22-28 of `main`: the three steps in order. -/
def MainState.exchange (s : MainState) : Except Fault MainState := do
  let s ← s.commit
  let s ← s.send
  s.reveal

/-- The heap that lines 18-28 of `main` leave when started in `h0` -/
def exchangedHeap (h0 : Heap) (rA mA rB mB : Bytes) : Heap :=
  { persons := h0.persons ++
      [ { r := rB, msg := mB, commitment := none, other := none },
        { r := rA, msg := mA, commitment := some h0.commitments.length,
          other := some h0.persons.length },
        { r := [], msg := mA, commitment := some h0.commitments.length, other := none },
        { r := rB, msg := mB, commitment := none, other := some (h0.persons.length + 2) } ],
    commitments := h0.commitments ++ [{ message := rA, isProtected := false }] }

/-! ## sequences of calls -/

/-- The two methods of a commitment, as calls with no argument. -/
inductive CommitmentCall where
  | open : CommitmentCall
  | decommit : CommitmentCall
  deriving DecidableEq, Repr

/-- One call on the commitment behind `c`: `c.open()`, whose results are
dropped, or `c.decommit()`. -/
def Heap.call (h : Heap) (c : Ptr) : CommitmentCall → Except Fault Heap
  | .open => do
    let _ ← h.open c
    pure h
  | .decommit => h.decommit c

/-- A sequence of calls on the commitment behind `c`, first call first. -/
def Heap.calls (h : Heap) (c : Ptr) : List CommitmentCall → Except Fault Heap
  | [] => pure h
  | k :: ks => do
    let h ← h.call c k
    h.calls c ks

/-- The two variables of `main` that hold parties. -/
inductive Party where
  | alice : Party
  | bob : Party
  deriving DecidableEq, Repr

/-- The pointer held by a variable of `main`. -/
def MainState.party (s : MainState) : Party → Ptr
  | .alice => s.alice
  | .bob => s.bob

/-- The protocol operations, applied to the variables of `main`:
`p.commitTo(the)`, `p.sendTo(the)`, `p.commitment.decommit()`,
`p.initiatorCheck()` and `p.secondaryCheck()`. -/
inductive Op where
  | commitTo (p the : Party) : Op
  | sendTo (p the : Party) : Op
  | decommit (p : Party) : Op
  | initiatorCheck (p : Party) : Op
  | secondaryCheck (p : Party) : Op
  deriving DecidableEq, Repr

/-- One protocol operation in a state of `main`.  The pin that a check returns
is dropped; a check that panics ends the run like any other panic. -/
def MainState.step (cr : Crypto) (s : MainState) : Op → Except Fault MainState
  | .commitTo p the => do
    let h ← s.heap.commitTo (s.party p) (s.party the)
    pure { s with heap := h }
  | .sendTo p the => do
    let h ← s.heap.sendTo (s.party p) (s.party the)
    pure { s with heap := h }
  | .decommit p => do
    let vp ← s.heap.loadPerson (s.party p)
    let h ← s.heap.decommit vp.commitment
    pure { s with heap := h }
  | .initiatorCheck p => do
    let _ ← s.heap.initiatorCheck cr (s.party p)
    pure s
  | .secondaryCheck p => do
    let _ ← s.heap.secondaryCheck cr (s.party p)
    pure s

/-- A sequence of protocol operations, first operation first. -/
def MainState.run (cr : Crypto) (s : MainState) : List Op → Except Fault MainState
  | [] => pure s
  | o :: os => do
    let s ← s.step cr o
    s.run cr os

/-- The two parties of `main` are where `newPerson` put them, `n` persons into
the heap, with the nonce, the message and the mirror pointer they were created
with. -/
def MainState.intact (s : MainState) (n : Nat) (rA mA rB mB : Bytes) : Prop :=
  s.alice = some (n + 1) ∧ s.bob = some (n + 3) ∧
  ∃ va vb, s.heap.loadPerson (some (n + 1)) = .ok va ∧
    va.r = rA ∧ va.msg = mA ∧ va.other = some n ∧
    s.heap.loadPerson (some (n + 3)) = .ok vb ∧
    vb.r = rB ∧ vb.msg = mB ∧ vb.other = some (n + 2)

/-! ## concrete inputs -/

/-- A stand-in for the library functions: the cipher returns the block with
the first key byte put in front of its tail, the MAC pads key and data to 32
bytes. -/
def demoCrypto : Crypto :=
  { aesEncryptBlock := fun k b => k.take 1 ++ b.drop 1,
    hmacSha256 := fun k d => (k ++ d ++ List.replicate 32 (7 : Byte)).take 32 }

/-- A 16-byte nonce for the initiator. -/
def demoRA : Bytes := List.replicate 16 (3 : Byte)

/-- A 16-byte nonce for the responder. -/
def demoRB : Bytes := List.replicate 16 (14 : Byte)

/-- A message for the initiator. -/
def demoMA : Bytes := [65, 108, 105, 99, 101]

/-- A message for the responder. -/
def demoMB : Bytes := [66, 111, 98]

/-- A sequence of operations on the two parties of `main`. -/
def demoOps : List Op :=
  [.commitTo .alice .bob, .sendTo .bob .alice, .decommit .alice, .initiatorCheck .alice,
    .secondaryCheck .bob, .sendTo .alice .bob, .commitTo .bob .alice, .sendTo .alice .alice]

/-! ## heap primitives -/

theorem bind_eq_ok {ε α β : Type} (x : Except ε α) (f : α → Except ε β) (b : β) :
    (x >>= f) = .ok b ↔ ∃ a, x = .ok a ∧ f a = .ok b := by
  cases x <;> simp [bind, Except.bind]

theorem loadPerson_append (ps l : List person) (cs : List commitment) (k : Nat) :
    Heap.loadPerson ⟨ps ++ l, cs⟩ (some (ps.length + k)) =
      match l[k]? with
      | none => .error .nilDeref
      | some v => .ok v := by
  simp [Heap.loadPerson, List.getElem?_append_right]

theorem loadPerson_append_zero (ps l : List person) (cs : List commitment) :
    Heap.loadPerson ⟨ps ++ l, cs⟩ (some ps.length) =
      match l[0]? with
      | none => .error .nilDeref
      | some v => .ok v := by
  simpa using loadPerson_append ps l cs 0

theorem setPerson_append (ps l : List person) (cs : List commitment) (k : Nat) (v : person) :
    Heap.setPerson ⟨ps ++ l, cs⟩ (some (ps.length + k)) v =
      if k < l.length then .ok ⟨ps ++ l.set k v, cs⟩ else .error .nilDeref := by
  simp [Heap.setPerson, List.set_append]

theorem setPerson_append_zero (ps l : List person) (cs : List commitment) (v : person) :
    Heap.setPerson ⟨ps ++ l, cs⟩ (some ps.length) v =
      if 0 < l.length then .ok ⟨ps ++ l.set 0 v, cs⟩ else .error .nilDeref := by
  simpa using setPerson_append ps l cs 0 v

theorem loadCommitment_append (ps : List person) (cs l : List commitment) :
    Heap.loadCommitment ⟨ps, cs ++ l⟩ (some cs.length) =
      match l[0]? with
      | none => .error .nilDeref
      | some v => .ok v := by
  simp [Heap.loadCommitment, List.getElem?_append_right]

theorem setCommitment_append (ps : List person) (cs l : List commitment) (v : commitment) :
    Heap.setCommitment ⟨ps, cs ++ l⟩ (some cs.length) v =
      if 0 < l.length then .ok ⟨ps, cs ++ l.set 0 v⟩ else .error .nilDeref := by
  simp [Heap.setCommitment, List.set_append]

theorem setPerson_ok {h h' : Heap} {p : Ptr} {v : person} (hs : h.setPerson p v = .ok h') :
    ∃ i, p = some i ∧ i < h.persons.length ∧
      h' = { persons := h.persons.set i v, commitments := h.commitments } := by
  cases p with
  | none => simp [Heap.setPerson] at hs
  | some i =>
    by_cases hi : i < h.persons.length
    · simp only [Heap.setPerson, if_pos hi, Except.ok.injEq] at hs
      exact ⟨i, rfl, hi, hs.symm⟩
    · simp [Heap.setPerson, if_neg hi] at hs

theorem loadPerson_setPerson {h h' : Heap} {p : Ptr} {v : person}
    (hs : h.setPerson p v = .ok h') (q : Ptr) :
    h'.loadPerson q = if q = p then .ok v else h.loadPerson q := by
  obtain ⟨i, rfl, hi, rfl⟩ := setPerson_ok hs
  cases q with
  | none => simp [Heap.loadPerson]
  | some j =>
    by_cases hji : j = i
    · subst hji
      simp [Heap.loadPerson, List.getElem?_set, hi]
    · have hij : ¬ i = j := fun e => hji e.symm
      simp [Heap.loadPerson, List.getElem?_set, hji, hij]

theorem commitments_setPerson {h h' : Heap} {p : Ptr} {v : person}
    (hs : h.setPerson p v = .ok h') : h'.commitments = h.commitments := by
  obtain ⟨i, rfl, hi, rfl⟩ := setPerson_ok hs
  rfl

/-- A store that keeps the pointer fields of the person it overwrites keeps the
pointer fields of every person, and the commitments. -/
theorem setPerson_links {h h' : Heap} {p : Ptr} {vold v : person}
    (hl : h.loadPerson p = .ok vold) (hs : h.setPerson p v = .ok h')
    (ho : v.other = vold.other) (hc : v.commitment = vold.commitment) :
    h'.commitments = h.commitments ∧
    ∀ q w, h.loadPerson q = .ok w →
      ∃ w', h'.loadPerson q = .ok w' ∧ w'.other = w.other ∧ w'.commitment = w.commitment := by
  refine ⟨commitments_setPerson hs, fun q w hq => ?_⟩
  rw [loadPerson_setPerson hs q]
  by_cases hqp : q = p
  · subst hqp
    rw [hl] at hq
    cases hq
    exact ⟨v, by simp, ho, hc⟩
  · exact ⟨w, by simp [hqp, hq], rfl, rfl⟩

/-- The method `sendTo` writes no pointer field and no commitment. -/
theorem sendTo_links {h h' : Heap} {p the : Ptr} (hs : h.sendTo p the = .ok h') :
    h'.commitments = h.commitments ∧
    ∀ q w, h.loadPerson q = .ok w →
      ∃ w', h'.loadPerson q = .ok w' ∧ w'.other = w.other ∧ w'.commitment = w.commitment := by
  simp only [Heap.sendTo, bind_eq_ok] at hs
  obtain ⟨vthe, hthe, vo, hvo, vp, -, h1, hset1, vthe2, hthe2, vo2, hvo2, vp2, -, hset2⟩ := hs
  obtain ⟨hc1, hl1⟩ := setPerson_links hvo hset1 rfl rfl
  obtain ⟨hc2, hl2⟩ := setPerson_links hvo2 hset2 rfl rfl
  refine ⟨hc2.trans hc1, fun q w hq => ?_⟩
  obtain ⟨w1, hw1, ho1, hk1⟩ := hl1 q w hq
  obtain ⟨w2, hw2, ho2, hk2⟩ := hl2 q w1 hw1
  exact ⟨w2, hw2, ho2.trans ho1, hk2.trans hk1⟩

/-- After `p.commitTo(the)` the mirror of `the` points to the commitment just
allocated, which wraps the nonce of `p` and is protected. -/
theorem commitTo_mirror {h h1 : Heap} {p the : Ptr} (hc : h.commitTo p the = .ok h1) :
    ∃ vp vthe vo, h.loadPerson p = .ok vp ∧ h1.loadPerson the = .ok vthe ∧
      h1.loadPerson vthe.other = .ok vo ∧
      vo.commitment = some h.commitments.length ∧
      h1.commitments = h.commitments ++ [commitment.new vp.r] := by
  simp only [Heap.commitTo, bind_eq_ok, Heap.newCommitment, Heap.allocCommitment] at hc
  obtain ⟨vp, hvp, hB, hsetB, vthe, hthe, vo, hvo, vp1, hvp1, hC, hsetC, vthe2, hthe2, vo2,
    hvo2, vp2, -, hset⟩ := hc
  -- the commitment field of p after the first store
  have hp1 : vp1.commitment = some h.commitments.length := by
    rw [loadPerson_setPerson hsetB] at hvp1
    simp at hvp1
    rw [← hvp1]
  -- the mirror pointer of `the` is the same before and after the second store
  have hoth : vthe2.other = vthe.other := by
    rw [loadPerson_setPerson hsetC] at hthe2
    by_cases hb : the = vthe.other
    · rw [if_pos hb] at hthe2
      cases hthe2
      rw [← hb, hthe] at hvo
      cases hvo
      rfl
    · rw [if_neg hb, hthe] at hthe2
      cases hthe2
      rfl
  have hvo2c : vo2.commitment = some h.commitments.length := by
    rw [hoth, loadPerson_setPerson hsetC] at hvo2
    simp at hvo2
    rw [← hvo2]
    exact hp1
  refine ⟨vp, ?_, { vo2 with msg := vp2.msg }, hvp, ?_, ?_, hvo2c, ?_⟩
  · exact if the = vthe2.other then { vo2 with msg := vp2.msg } else vthe2
  · rw [loadPerson_setPerson hset]
    by_cases hb : the = vthe2.other <;> simp [hb, hthe2]
  · rw [loadPerson_setPerson hset]
    by_cases hb : the = vthe2.other
    · rw [← hb, hthe2] at hvo2
      cases hvo2
      simp [hb]
    · simp [hb]
  · rw [commitments_setPerson hset, commitments_setPerson hsetC, commitments_setPerson hsetB]

/-! ## retrievePin -/

theorem sprintfD_digit (n : Nat) (hn : n < 10) : sprintfD n = String.mk [Nat.digitChar n] := by
  unfold sprintfD
  interval_cases n <;> rfl

theorem string_append_mk (s : String) (l : List Char) :
    s ++ String.mk l = String.mk (s.data ++ l) := by
  apply String.ext
  simp

theorem retrievePinLoop_eq (n : Int) (r : Bytes) (acc : String) (hacc : (acc.length : Int) < n) :
    retrievePinLoop n r acc =
      String.mk (acc.data ++
        (r.take (n.toNat - acc.length)).map (fun b => Nat.digitChar (b.val % 10))) := by
  induction r generalizing acc with
  | nil => simp [retrievePinLoop]
  | cons b rest ih =>
    have hd : sprintfD (b.val % 10) = String.mk [Nat.digitChar (b.val % 10)] :=
      sprintfD_digit _ (Nat.mod_lt _ (by decide))
    have hlen : (acc ++ sprintfD (b.val % 10)).length = acc.length + 1 := by
      rw [hd, String.length_append]; rfl
    have hpos : n.toNat - acc.length = (n.toNat - (acc.length + 1)) + 1 := by omega
    simp only [retrievePinLoop]
    by_cases hstop : (((acc ++ sprintfD (b.val % 10)).length : Nat) : Int) = n
    · rw [if_pos hstop]
      have h0 : n.toNat - (acc.length + 1) = 0 := by omega
      rw [hpos, h0, hd, string_append_mk]
      simp
    · rw [if_neg hstop, ih _ (by omega), hlen, hpos, hd]
      simp [List.take_succ_cons]

theorem retrievePin_eq (r : Bytes) (n : Int) (hn : 1 ≤ n) :
    retrievePin r n =
      String.mk ((r.take n.toNat).map (fun b => Nat.digitChar (b.val % 10))) := by
  have h := retrievePinLoop_eq n r "" (by simpa using hn)
  simpa [retrievePin] using h

theorem digitChar_isDigit (n : Nat) (hn : n < 10) : (Nat.digitChar n).isDigit = true := by
  interval_cases n <;> rfl

theorem retrievePin_eight_digits (d : Bytes) (hd : 8 ≤ d.length) :
    (retrievePin d 8).length = 8 ∧ ∀ c ∈ (retrievePin d 8).data, c.isDigit = true := by
  rw [retrievePin_eq d 8 (by decide)]
  constructor
  · simp [String.length]
    omega
  · intro c hc
    simp only [List.mem_map] at hc
    obtain ⟨b, -, rfl⟩ := hc
    exact digitChar_isDigit _ (Nat.mod_lt _ (by decide))

/-! ## the exchange of `main`, computed -/

theorem mainSetup_eq (h0 : Heap) (rA mA rB mB : Bytes) :
    mainSetup h0 rA mA rB mB =
      { heap :=
          { persons := h0.persons ++
              [ person.zero,
                { r := rA, msg := mA, commitment := none, other := some h0.persons.length },
                person.zero,
                { r := rB, msg := mB, commitment := none,
                  other := some (h0.persons.length + 2) } ],
            commitments := h0.commitments },
        alice := some (h0.persons.length + 1),
        bob := some (h0.persons.length + 3) } := by
  simp [mainSetup, Heap.newPerson, Heap.allocPerson]

theorem commit_mainSetup (h0 : Heap) (rA mA rB mB : Bytes) :
    (mainSetup h0 rA mA rB mB).commit =
      .ok { heap :=
              { persons := h0.persons ++
                  [ person.zero,
                    { r := rA, msg := mA, commitment := some h0.commitments.length,
                      other := some h0.persons.length },
                    { r := [], msg := mA, commitment := some h0.commitments.length,
                      other := none },
                    { r := rB, msg := mB, commitment := none,
                      other := some (h0.persons.length + 2) } ],
                commitments := h0.commitments ++ [{ message := rA, isProtected := true }] },
            alice := some (h0.persons.length + 1),
            bob := some (h0.persons.length + 3) } := by
  rw [mainSetup_eq]
  simp [MainState.commit, Heap.commitTo, loadPerson_append, loadPerson_append_zero,
    setPerson_append, setPerson_append_zero, Heap.newCommitment, Heap.allocCommitment, bind,
    Except.bind, person.zero, commitment.new, pure, Except.pure]

theorem send_commit_mainSetup (h0 : Heap) (rA mA rB mB : Bytes) :
    (mainSetup h0 rA mA rB mB).commit >>= MainState.send =
      .ok { heap :=
              { persons := h0.persons ++
                  [ { r := rB, msg := mB, commitment := none, other := none },
                    { r := rA, msg := mA, commitment := some h0.commitments.length,
                      other := some h0.persons.length },
                    { r := [], msg := mA, commitment := some h0.commitments.length,
                      other := none },
                    { r := rB, msg := mB, commitment := none,
                      other := some (h0.persons.length + 2) } ],
                commitments := h0.commitments ++ [{ message := rA, isProtected := true }] },
            alice := some (h0.persons.length + 1),
            bob := some (h0.persons.length + 3) } := by
  rw [commit_mainSetup]
  simp [MainState.send, Heap.sendTo, loadPerson_append, loadPerson_append_zero,
    setPerson_append, setPerson_append_zero, bind, Except.bind, person.zero, pure, Except.pure]

theorem exchange_mainSetup (h0 : Heap) (rA mA rB mB : Bytes) :
    (mainSetup h0 rA mA rB mB).exchange =
      .ok { heap := exchangedHeap h0 rA mA rB mB,
            alice := some (h0.persons.length + 1),
            bob := some (h0.persons.length + 3) } := by
  have h := send_commit_mainSetup h0 rA mA rB mB
  simp only [bind, Except.bind] at h
  simp only [MainState.exchange, bind, Except.bind]
  split at h
  · exact absurd h (by simp)
  · rw [h]
    simp [MainState.reveal, Heap.decommit, loadPerson_append, loadCommitment_append,
      setCommitment_append, bind, Except.bind, pure, Except.pure, commitment.decommit,
      exchangedHeap]

theorem initiatorMac_exchanged (cr : Crypto) (h0 : Heap) (rA mA rB mB : Bytes)
    (hA : rA.length = 16) (hB : rB.length = 16) :
    (exchangedHeap h0 rA mA rB mB).initiatorMac cr (some (h0.persons.length + 1)) =
      .ok { key := cr.aesEncryptBlock rA rB, written := mA ++ mB } := by
  simp [Heap.initiatorMac, exchangedHeap, loadPerson_append, loadPerson_append_zero, bind,
    Except.bind, aesNewCipher, aesEncrypt, aesBlockSize, hA, hB, hmacNew, HMAC.Write, pure,
    Except.pure]
  rw [← hB, List.take_length]

theorem secondaryMac_exchanged (cr : Crypto) (h0 : Heap) (rA mA rB mB : Bytes)
    (hA : rA.length = 16) (hB : rB.length = 16) :
    (exchangedHeap h0 rA mA rB mB).secondaryMac cr (some (h0.persons.length + 3)) =
      .ok { key := cr.aesEncryptBlock rA rB, written := mA ++ mB } := by
  simp [Heap.secondaryMac, exchangedHeap, loadPerson_append, loadPerson_append_zero, bind,
    Except.bind, aesNewCipher, aesEncrypt, aesBlockSize, hA, hB, hmacNew, HMAC.Write, pure,
    Except.pure, Heap.open, loadCommitment_append, commitment.open]
  rw [← hB, List.take_length]

/-! ## the effect of each operation on the heap -/

theorem loadPerson_commitments (ps : List person) (cs cs' : List commitment) (q : Ptr) :
    Heap.loadPerson ⟨ps, cs⟩ q = Heap.loadPerson ⟨ps, cs'⟩ q := rfl

/-- The whole effect of `p.commitTo(the)` on the heap, in terms of the persons
read before the call: one commitment is allocated, the mirror of `the` gets
the pointer to it and the message of `p`, and `p` gets the pointer to it. -/
theorem commitTo_load {h h1 : Heap} {p the : Ptr} (hc : h.commitTo p the = .ok h1) :
    ∃ vp vthe vo, h.loadPerson p = .ok vp ∧ h.loadPerson the = .ok vthe ∧
      h.loadPerson vthe.other = .ok vo ∧
      h1.commitments = h.commitments ++ [commitment.new vp.r] ∧
      ∀ x, h1.loadPerson x =
        if x = vthe.other then
          .ok { vo with commitment := some h.commitments.length, msg := vp.msg }
        else if x = p then .ok { vp with commitment := some h.commitments.length }
        else h.loadPerson x := by
  simp only [Heap.commitTo, bind_eq_ok, Heap.newCommitment, Heap.allocCommitment] at hc
  obtain ⟨vp, hvp, hB, hsetB, vtheB, htheB, voB, hvoB, vp1, hvp1, hC, hsetC, vthe2, hthe2, vo2,
    hvo2, vp2, hvp2, hset⟩ := hc
  have E1 := loadPerson_setPerson hsetB
  have E2 := loadPerson_setPerson hsetC
  have E3 := loadPerson_setPerson hset
  simp only [loadPerson_commitments h.persons _ h.commitments] at E1
  change ∀ q, hB.loadPerson q = if q = p then _ else h.loadPerson q at E1
  -- what the second and third statement read
  rw [E1] at htheB hvoB hvp1
  simp only [if_true] at hvp1
  cases hvp1
  rw [E2] at hthe2 hvo2 hvp2
  rw [E1] at hthe2 hvo2 hvp2
  have hcs : h1.commitments = h.commitments ++ [commitment.new vp.r] := by
    rw [commitments_setPerson hset, commitments_setPerson hsetC, commitments_setPerson hsetB]
  -- the mirror pointer of `the` is the same at the second and the third statement
  have ha : vthe2.other = vtheB.other := by
    by_cases hb : the = vtheB.other
    · rw [if_pos hb] at hthe2
      cases hthe2
      rw [← hb, htheB] at hvoB
      cases hvoB
      rfl
    · rw [if_neg hb, htheB] at hthe2
      cases hthe2
      rfl
  have hb2 : vo2 = { voB with commitment := some h.commitments.length } := by
    rw [ha, if_pos rfl] at hvo2
    cases hvo2
    rfl
  have hc2 : vp2.msg = vp.msg := by
    by_cases hp : p = vtheB.other
    · rw [if_pos hp] at hvp2
      cases hvp2
      rw [← hp, if_pos rfl] at hvoB
      cases hvoB
      rfl
    · rw [if_neg hp, if_pos rfl] at hvp2
      cases hvp2
      rfl
  have hx : ∀ x, h1.loadPerson x =
      if x = vtheB.other then
        .ok { voB with commitment := some h.commitments.length, msg := vp.msg }
      else if x = p then .ok { vp with commitment := some h.commitments.length }
      else h.loadPerson x := by
    intro x
    rw [E3, E2, E1, ha, hb2, hc2]
    by_cases hxo : x = vtheB.other <;> simp [hxo]
  by_cases hthe : the = p
  · rw [if_pos hthe] at htheB
    cases htheB
    by_cases hop : vp.other = p
    · rw [if_pos hop] at hvoB
      cases hvoB
      exact ⟨vp, vp, vp, hvp, hthe ▸ hvp, by rw [hop]; exact hvp, hcs, hx⟩
    · rw [if_neg hop] at hvoB
      exact ⟨vp, vp, voB, hvp, hthe ▸ hvp, hvoB, hcs, hx⟩
  · rw [if_neg hthe] at htheB
    by_cases hop : vtheB.other = p
    · rw [if_pos hop] at hvoB
      cases hvoB
      exact ⟨vp, vtheB, vp, hvp, htheB, by rw [hop]; exact hvp, hcs, hx⟩
    · rw [if_neg hop] at hvoB
      exact ⟨vp, vtheB, voB, hvp, htheB, hvoB, hcs, hx⟩

/-- The whole effect of `p.sendTo(the)` on the heap, in terms of the persons
read before the call: the mirror of `the` gets the message and the nonce of
`p`, and nothing else is written. -/
theorem sendTo_load {h h1 : Heap} {p the : Ptr} (hs : h.sendTo p the = .ok h1) :
    ∃ vp vthe vo, h.loadPerson p = .ok vp ∧ h.loadPerson the = .ok vthe ∧
      h.loadPerson vthe.other = .ok vo ∧
      h1.commitments = h.commitments ∧
      ∀ x, h1.loadPerson x =
        if x = vthe.other then .ok { vo with msg := vp.msg, r := vp.r }
        else h.loadPerson x := by
  simp only [Heap.sendTo, bind_eq_ok] at hs
  obtain ⟨vthe, hthe, vo, hvo, vp, hvp, hM, hsetM, vthe2, hthe2, vo2, hvo2, vp2, hvp2, hset⟩ :=
    hs
  have E1 := loadPerson_setPerson hsetM
  have E2 := loadPerson_setPerson hset
  rw [E1] at hthe2 hvo2 hvp2
  have ha : vthe2.other = vthe.other := by
    by_cases hb : the = vthe.other
    · rw [if_pos hb] at hthe2
      cases hthe2
      rw [← hb, hthe] at hvo
      cases hvo
      rfl
    · rw [if_neg hb, hthe] at hthe2
      cases hthe2
      rfl
  have hb2 : vo2 = { vo with msg := vp.msg } := by
    rw [ha, if_pos rfl] at hvo2
    cases hvo2
    rfl
  have hc2 : vp2.r = vp.r := by
    by_cases hp : p = vthe.other
    · rw [if_pos hp] at hvp2
      cases hvp2
      rw [← hp, hvp] at hvo
      cases hvo
      rfl
    · rw [if_neg hp, hvp] at hvp2
      cases hvp2
      rfl
  refine ⟨vp, vthe, vo, hvp, hthe, hvo, ?_, fun x => ?_⟩
  · rw [commitments_setPerson hset, commitments_setPerson hsetM]
  · rw [E2, E1, ha, hb2, hc2]
    by_cases hxo : x = vthe.other <;> simp [hxo]

theorem loadCommitment_ok {h : Heap} {c : Ptr} {v : commitment}
    (hv : h.loadCommitment c = .ok v) :
    ∃ i, c = some i ∧ i < h.commitments.length ∧ h.commitments[i]? = some v := by
  cases c with
  | none => simp [Heap.loadCommitment] at hv
  | some i =>
    cases hi : h.commitments[i]? with
    | none => simp [Heap.loadCommitment, hi] at hv
    | some w =>
      simp only [Heap.loadCommitment, hi, Except.ok.injEq] at hv
      subst hv
      have hlt : i < h.commitments.length := by
        by_contra hge
        rw [List.getElem?_eq_none (by omega)] at hi
        cases hi
      exact ⟨i, rfl, hlt, hi⟩

/-- The whole effect of `decommit` through a pointer to a live commitment: the
call returns, the commitment pointed to is the decommitted one, every other
commitment and every person is as before. -/
theorem decommit_load {h : Heap} {c : Ptr} {v : commitment}
    (hv : h.loadCommitment c = .ok v) :
    ∃ h1, h.decommit c = .ok h1 ∧ h1.persons = h.persons ∧
      ∀ d, h1.loadCommitment d = if d = c then .ok v.decommit else h.loadCommitment d := by
  obtain ⟨i, rfl, hi, hget⟩ := loadCommitment_ok hv
  refine ⟨{ persons := h.persons, commitments := h.commitments.set i v.decommit }, ?_, rfl,
    fun d => ?_⟩
  · simp only [Heap.decommit, hv, bind, Except.bind, Heap.setCommitment, if_pos hi]
  · cases d with
    | none => simp [Heap.loadCommitment]
    | some j =>
      by_cases hji : j = i
      · subst hji
        simp [Heap.loadCommitment, List.getElem?_set, hi]
      · have hij : ¬ i = j := fun e => hji e.symm
        simp [Heap.loadCommitment, List.getElem?_set, hji, hij]

/-- What `p.commitTo(the)` leaves in the fields of `p`, of `the` and of the
mirror of `the`, and in the commitment it allocates. -/
theorem commitTo_fields {h h1 : Heap} {p the : Ptr} (hc : h.commitTo p the = .ok h1) :
    ∃ vp vthe vo vp1 vthe1 vo1,
      h.loadPerson p = .ok vp ∧ h.loadPerson the = .ok vthe ∧
      h.loadPerson vthe.other = .ok vo ∧
      h1.loadPerson p = .ok vp1 ∧ h1.loadPerson the = .ok vthe1 ∧
      h1.loadPerson vthe.other = .ok vo1 ∧
      vthe1.other = vthe.other ∧
      vp1.r = vp.r ∧ vp1.msg = vp.msg ∧ vp1.other = vp.other ∧
      vp1.commitment = some h.commitments.length ∧
      vo1.commitment = some h.commitments.length ∧
      vo1.msg = vp.msg ∧ vo1.r = vo.r ∧ vo1.other = vo.other ∧
      h1.loadCommitment (some h.commitments.length) =
        .ok { message := vp.r, isProtected := true } := by
  obtain ⟨vp, vthe, vo, hp, hthe, ho, hcs, hx⟩ := commitTo_load hc
  have Hp : ∃ vp1, h1.loadPerson p = .ok vp1 ∧ vp1.r = vp.r ∧ vp1.msg = vp.msg ∧
      vp1.other = vp.other ∧ vp1.commitment = some h.commitments.length := by
    rw [hx]
    by_cases a : p = vthe.other
    · have hvo : vo = vp := by
        rw [← a, hp] at ho
        cases ho
        rfl
      subst hvo
      exact ⟨{ vo with commitment := some h.commitments.length, msg := vo.msg }, if_pos a, rfl,
        rfl, rfl, rfl⟩
    · exact ⟨{ vp with commitment := some h.commitments.length },
        by rw [if_neg a, if_pos rfl], rfl, rfl, rfl, rfl⟩
  have Hthe : ∃ vthe1, h1.loadPerson the = .ok vthe1 ∧ vthe1.other = vthe.other := by
    rw [hx]
    by_cases b : the = vthe.other
    · have hvo : vo = vthe := by
        rw [← b, hthe] at ho
        cases ho
        rfl
      subst hvo
      exact ⟨{ vo with commitment := some h.commitments.length, msg := vp.msg }, if_pos b, rfl⟩
    · by_cases c : the = p
      · have hv : vthe = vp := by
          rw [c, hp] at hthe
          cases hthe
          rfl
        subst hv
        exact ⟨{ vthe with commitment := some h.commitments.length },
          by rw [if_neg b, if_pos c], rfl⟩
      · exact ⟨vthe, by rw [if_neg b, if_neg c]; exact hthe, rfl⟩
  have Ho : h1.loadPerson vthe.other =
      .ok { vo with commitment := some h.commitments.length, msg := vp.msg } := by
    rw [hx, if_pos rfl]
  have Hc : h1.loadCommitment (some h.commitments.length) =
      .ok { message := vp.r, isProtected := true } := by
    obtain ⟨ps1, cs1⟩ := h1
    simp only at hcs
    subst hcs
    simp [loadCommitment_append, commitment.new]
  obtain ⟨vp1, hp1, e1, e2, e3, e4⟩ := Hp
  obtain ⟨vthe1, hthe1, e5⟩ := Hthe
  exact ⟨vp, vthe, vo, vp1, vthe1, _, hp, hthe, ho, hp1, hthe1, Ho, e5, e1, e2, e3, e4, rfl, rfl,
    rfl, rfl, Hc⟩

theorem open_of_loadCommitment {h : Heap} {c : Ptr} {v : commitment}
    (hv : h.loadCommitment c = .ok v) : h.open c = .ok v.open := by
  simp [Heap.open, hv, bind, Except.bind, pure, Except.pure]

theorem newPerson_eq (h0 : Heap) (r m : Bytes) :
    h0.newPerson r m =
      ({ persons := h0.persons ++
            [person.zero, { r := r, msg := m, commitment := none, other := some h0.persons.length }],
         commitments := h0.commitments },
        some (h0.persons.length + 1)) := by
  simp [Heap.newPerson, Heap.allocPerson]

theorem loadPerson_decommit {h h1 : Heap} {c : Ptr} (hd : h.decommit c = .ok h1) (x : Ptr) :
    h1.loadPerson x = h.loadPerson x := by
  simp only [Heap.decommit, bind_eq_ok] at hd
  obtain ⟨v, hv, hset⟩ := hd
  obtain ⟨i, rfl, hi, -⟩ := loadCommitment_ok hv
  simp only [Heap.setCommitment, if_pos hi, Except.ok.injEq] at hset
  rw [← hset]
  rfl

/-- The call `p.commitTo(the)` keeps nonce, message and mirror pointer of every
person that is not the mirror of `the`. -/
theorem commitTo_keeps {h h1 : Heap} {p the x : Ptr} {vthe vx : person}
    (hc : h.commitTo p the = .ok h1) (hthe : h.loadPerson the = .ok vthe)
    (hx : h.loadPerson x = .ok vx) (hne : x ≠ vthe.other) :
    ∃ vx1, h1.loadPerson x = .ok vx1 ∧ vx1.r = vx.r ∧ vx1.msg = vx.msg ∧
      vx1.other = vx.other := by
  obtain ⟨vp, vthe', vo, hp, hthe', -, -, hl⟩ := commitTo_load hc
  rw [hthe] at hthe'
  cases hthe'
  rw [hl, if_neg hne]
  by_cases hxp : x = p
  · rw [hxp, hp] at hx
    cases hx
    exact ⟨{ vx with commitment := some h.commitments.length }, by rw [if_pos hxp], rfl, rfl,
      rfl⟩
  · exact ⟨vx, by rw [if_neg hxp, hx], rfl, rfl, rfl⟩

/-- The call `p.sendTo(the)` keeps every person that is not the mirror of
`the`. -/
theorem sendTo_keeps {h h1 : Heap} {p the x : Ptr} {vthe : person}
    (hs : h.sendTo p the = .ok h1) (hthe : h.loadPerson the = .ok vthe)
    (hne : x ≠ vthe.other) : h1.loadPerson x = h.loadPerson x := by
  obtain ⟨vp, vthe', vo, -, hthe', -, -, hl⟩ := sendTo_load hs
  rw [hthe] at hthe'
  cases hthe'
  rw [hl, if_neg hne]

theorem party_intact {s : MainState} {n : Nat} {rA mA rB mB : Bytes}
    (hi : s.intact n rA mA rB mB) (q : Party) :
    ∃ vq, s.heap.loadPerson (s.party q) = .ok vq ∧
      (vq.other = some n ∨ vq.other = some (n + 2)) := by
  obtain ⟨ha, hb, va, vb, hva, -, -, oa, hvb, -, -, ob⟩ := hi
  cases q with
  | alice => exact ⟨va, by simp only [MainState.party, ha, hva], Or.inl oa⟩
  | bob => exact ⟨vb, by simp only [MainState.party, hb, hvb], Or.inr ob⟩

/-- One protocol operation keeps the two parties of `main` intact. -/
theorem step_intact (cr : Crypto) {s s1 : MainState} {n : Nat} {rA mA rB mB : Bytes} (o : Op)
    (hi : s.intact n rA mA rB mB) (hstep : s.step cr o = .ok s1) :
    s1.intact n rA mA rB mB := by
  have hi0 := hi
  obtain ⟨ha, hb, va, vb, hva, ra, ma, oa, hvb, rb, mb, ob⟩ := hi
  cases o with
  | commitTo p the =>
    simp only [MainState.step, bind_eq_ok, pure, Except.pure, Except.ok.injEq] at hstep
    obtain ⟨h1, hc, rfl⟩ := hstep
    obtain ⟨vthe, hthe, hor⟩ := party_intact hi0 the
    have hna : (some (n + 1) : Ptr) ≠ vthe.other := by
      rcases hor with e | e <;> rw [e] <;> simp
    have hnb : (some (n + 3) : Ptr) ≠ vthe.other := by
      rcases hor with e | e <;> rw [e] <;> simp
    obtain ⟨va1, hva1, e1, e2, e3⟩ := commitTo_keeps hc hthe hva hna
    obtain ⟨vb1, hvb1, f1, f2, f3⟩ := commitTo_keeps hc hthe hvb hnb
    exact ⟨ha, hb, va1, vb1, hva1, e1.trans ra, e2.trans ma, e3.trans oa, hvb1, f1.trans rb,
      f2.trans mb, f3.trans ob⟩
  | sendTo p the =>
    simp only [MainState.step, bind_eq_ok, pure, Except.pure, Except.ok.injEq] at hstep
    obtain ⟨h1, hc, rfl⟩ := hstep
    obtain ⟨vthe, hthe, hor⟩ := party_intact hi0 the
    have hna : (some (n + 1) : Ptr) ≠ vthe.other := by
      rcases hor with e | e <;> rw [e] <;> simp
    have hnb : (some (n + 3) : Ptr) ≠ vthe.other := by
      rcases hor with e | e <;> rw [e] <;> simp
    exact ⟨ha, hb, va, vb, by rw [sendTo_keeps hc hthe hna]; exact hva, ra, ma, oa,
      by rw [sendTo_keeps hc hthe hnb]; exact hvb, rb, mb, ob⟩
  | decommit p =>
    simp only [MainState.step, bind_eq_ok, pure, Except.pure, Except.ok.injEq] at hstep
    obtain ⟨vp, -, h1, hd, rfl⟩ := hstep
    exact ⟨ha, hb, va, vb, by rw [loadPerson_decommit hd]; exact hva, ra, ma, oa,
      by rw [loadPerson_decommit hd]; exact hvb, rb, mb, ob⟩
  | initiatorCheck p =>
    simp only [MainState.step, bind_eq_ok, pure, Except.pure, Except.ok.injEq] at hstep
    obtain ⟨pin, -, rfl⟩ := hstep
    exact hi0
  | secondaryCheck p =>
    simp only [MainState.step, bind_eq_ok, pure, Except.pure, Except.ok.injEq] at hstep
    obtain ⟨pin, -, rfl⟩ := hstep
    exact hi0

theorem run_intact (cr : Crypto) {n : Nat} {rA mA rB mB : Bytes} (ops : List Op) :
    ∀ {s s1 : MainState}, s.intact n rA mA rB mB → s.run cr ops = .ok s1 →
      s1.intact n rA mA rB mB := by
  induction ops with
  | nil =>
    intro s s1 hi hrun
    simp only [MainState.run, pure, Except.pure, Except.ok.injEq] at hrun
    exact hrun ▸ hi
  | cons o os ih =>
    intro s s1 hi hrun
    simp only [MainState.run, bind_eq_ok] at hrun
    obtain ⟨s2, hstep, hrest⟩ := hrun
    exact ih (step_intact cr o hi hstep) hrest

theorem mainSetup_intact (h0 : Heap) (rA mA rB mB : Bytes) :
    (mainSetup h0 rA mA rB mB).intact h0.persons.length rA mA rB mB := by
  rw [mainSetup_eq]
  refine ⟨rfl, rfl, person.mk rA mA none (some h0.persons.length),
    person.mk rB mB none (some (h0.persons.length + 2)), ?_, rfl, rfl, rfl, ?_, rfl, rfl, rfl⟩
  · simp [loadPerson_append]
  · simp [loadPerson_append]

theorem calls_append (h : Heap) (c : Ptr) (ks1 ks2 : List CommitmentCall) :
    h.calls c (ks1 ++ ks2) = (h.calls c ks1 >>= fun hm => hm.calls c ks2) := by
  induction ks1 generalizing h with
  | nil => simp [Heap.calls, bind, Except.bind, pure, Except.pure]
  | cons k ks ih =>
    simp only [List.cons_append, Heap.calls]
    cases hk : h.call c k with
    | error e => simp [bind, Except.bind]
    | ok hm =>
      simp only [bind, Except.bind] at ih ⊢
      exact ih hm

/-- A sequence of calls on a live commitment returns; it leaves the message,
and the flag is the one before unless a `decommit` is among the calls, which
makes it false. -/
theorem calls_load {h : Heap} {c : Ptr} {v : commitment} (ks : List CommitmentCall)
    (hv : h.loadCommitment c = .ok v) :
    ∃ h1, h.calls c ks = .ok h1 ∧
      h1.loadCommitment c =
        .ok { message := v.message,
              isProtected := v.isProtected && !decide (CommitmentCall.decommit ∈ ks) } ∧
      h1.persons = h.persons ∧
      ∀ d, d ≠ c → h1.loadCommitment d = h.loadCommitment d := by
  induction ks generalizing h v with
  | nil =>
    refine ⟨h, rfl, ?_, rfl, fun d _ => rfl⟩
    simp [hv]
  | cons k ks ih =>
    rcases k with _ | _
    · obtain ⟨h1, hrun, hl, hps, hfr⟩ := ih hv
      refine ⟨h1, ?_, ?_, hps, hfr⟩
      · simp only [Heap.calls, Heap.call, open_of_loadCommitment hv, bind, Except.bind, pure,
          Except.pure]
        exact hrun
      · rw [hl]
        simp
    · obtain ⟨hm, hd, hpm, hlm⟩ := decommit_load hv
      have hvm : hm.loadCommitment c = .ok v.decommit := by rw [hlm, if_pos rfl]
      obtain ⟨h1, hrun, hl, hps, hfr⟩ := ih hvm
      refine ⟨h1, ?_, ?_, hps.trans hpm, fun d hne => ?_⟩
      · simp only [Heap.calls, Heap.call, hd, bind, Except.bind]
        exact hrun
      · rw [hl]
        simp [commitment.decommit]
      · rw [hfr d hne, hlm, if_neg hne]

theorem retrievePinLoop_no_stop (n : Int) (r : Bytes) (acc : String)
    (hacc : n ≤ (acc.length : Int)) :
    retrievePinLoop n r acc =
      String.mk (acc.data ++ r.map (fun b => Nat.digitChar (b.val % 10))) := by
  induction r generalizing acc with
  | nil => simp [retrievePinLoop]
  | cons b rest ih =>
    have hd : sprintfD (b.val % 10) = String.mk [Nat.digitChar (b.val % 10)] :=
      sprintfD_digit _ (Nat.mod_lt _ (by decide))
    have hlen : (acc ++ sprintfD (b.val % 10)).length = acc.length + 1 := by
      rw [hd, String.length_append]; rfl
    have hstop : ¬ (((acc ++ sprintfD (b.val % 10)).length : Nat) : Int) = n := by
      rw [hlen]; omega
    simp only [retrievePinLoop]
    rw [if_neg hstop, ih _ (by rw [hlen]; omega), hd]
    simp

/-! ## the claims -/

/-- C1: for all 16-byte nonces and all messages, the exchange of `main`
(`commitTo`, `sendTo`, `decommit`) runs through, and `initiatorCheck` on the
initiator and `secondaryCheck` on the responder both return, with the same
string, whatever the block cipher and the MAC are. -/
theorem pins_agree (cr : Crypto) (h0 : Heap) (rA mA rB mB : Bytes)
    (hA : rA.length = 16) (hB : rB.length = 16) :
    ∃ s pin, (mainSetup h0 rA mA rB mB).exchange = .ok s ∧
      s.heap.initiatorCheck cr s.alice = .ok pin ∧
      s.heap.secondaryCheck cr s.bob = .ok pin := by
  refine ⟨_, retrievePin (cr.hmacSha256 (cr.aesEncryptBlock rA rB) (mA ++ mB)) 8,
    exchange_mainSetup h0 rA mA rB mB, ?_, ?_⟩
  · simp [Heap.initiatorCheck, initiatorMac_exchanged cr h0 rA mA rB mB hA hB, bind,
      Except.bind, pure, Except.pure, HMAC.Sum]
  · simp [Heap.secondaryCheck, secondaryMac_exchanged cr h0 rA mA rB mB hA hB, bind,
      Except.bind, pure, Except.pure, HMAC.Sum]

/-- Witness for C1 at the demo nonces and messages, started in the empty heap. -/
theorem pins_agree_witness :
    demoRA.length = 16 ∧ demoRB.length = 16 ∧
    ∃ s pin, (mainSetup Heap.empty demoRA demoMA demoRB demoMB).exchange = .ok s ∧
      s.heap.initiatorCheck demoCrypto s.alice = .ok pin ∧
      s.heap.secondaryCheck demoCrypto s.bob = .ok pin :=
  ⟨by decide, by decide,
    pins_agree demoCrypto Heap.empty demoRA demoMA demoRB demoMB (by decide) (by decide)⟩

/-- C2: for every heap and every initiator `a` and responder `b` in it, once
`a.commitTo(b)` and `b.sendTo(a)` have run and no `decommit` has, `secondaryCheck`
on `b` returns no pin: it panics with the text "commitment is protected". -/
theorem secondaryCheck_before_decommit (cr : Crypto) (h h1 h2 : Heap) (a b : Ptr)
    (hc : h.commitTo a b = .ok h1) (hs : h1.sendTo b a = .ok h2) :
    h2.secondaryCheck cr b = .error (.panic "commitment is protected") := by
  obtain ⟨va, vb, vo, -, hb, ho, hvc, hcs⟩ := commitTo_mirror hc
  obtain ⟨hcs2, hl⟩ := sendTo_links hs
  obtain ⟨vb2, hb2, hbo, -⟩ := hl b vb hb
  obtain ⟨vo2, ho2, -, hoc⟩ := hl vb.other vo ho
  have hopen : h2.open (some h.commitments.length) = .ok ([], some errProtected) := by
    obtain ⟨ps, cs⟩ := h2
    simp only at hcs2
    subst hcs2
    rw [hcs]
    simp [Heap.open, loadCommitment_append, bind, Except.bind, pure, Except.pure,
      commitment.new, commitment.open]
  simp only [Heap.secondaryCheck, Heap.secondaryMac, bind, Except.bind, hb2, hbo, ho2, hoc,
    hvc, hopen]
  rfl

/-- Witness for C2 in the heap of `main`: the demo parties, after `commitTo`
and `sendTo` and before `decommit`. -/
theorem secondaryCheck_before_decommit_witness :
    ∃ h1 h2,
      (mainSetup Heap.empty demoRA demoMA demoRB demoMB).heap.commitTo (some 1) (some 3) =
        .ok h1 ∧
      h1.sendTo (some 3) (some 1) = .ok h2 ∧
      h2.secondaryCheck demoCrypto (some 3) = .error (.panic "commitment is protected") :=
  ⟨_, _, rfl, rfl,
    secondaryCheck_before_decommit demoCrypto
      (mainSetup Heap.empty demoRA demoMA demoRB demoMB).heap _ _ (some 1) (some 3) rfl rfl⟩

/-- C3: for every byte sequence `x`, decommitting `newCommitment(x)` and then
calling `open` returns exactly `x` and the nil error: on the struct itself and,
in every heap, through the pointer that `newCommitment` returns. -/
theorem open_decommit_newCommitment (x : Bytes) :
    (commitment.new x).decommit.open = (x, none) ∧
    ∀ h : Heap, ∃ h2,
      (h.newCommitment x).1.decommit (h.newCommitment x).2 = .ok h2 ∧
      h2.open (h.newCommitment x).2 = .ok (x, none) := by
  refine ⟨rfl, fun h => ?_⟩
  obtain ⟨ps, cs⟩ := h
  refine ⟨⟨ps, cs ++ [(commitment.new x).decommit]⟩, ?_, ?_⟩
  · simp [Heap.newCommitment, Heap.allocCommitment, Heap.decommit, loadCommitment_append,
      setCommitment_append, bind, Except.bind]
  · simp [Heap.newCommitment, Heap.allocCommitment, Heap.open, loadCommitment_append,
      bind, Except.bind, commitment.new, commitment.decommit, commitment.open, pure, Except.pure]

/-- C4: for every byte sequence `x`, `newCommitment(x)` wraps `x` with
`isProtected = true`, and `open` on it with no `decommit` in between returns
the nil value and the error "commitment is protected": on the struct itself
and, in every heap, through the pointer that `newCommitment` returns. -/
theorem open_newCommitment_protected (x : Bytes) :
    commitment.new x = { message := x, isProtected := true } ∧
    (commitment.new x).open = ([], some "commitment is protected") ∧
    ∀ h : Heap,
      (h.newCommitment x).1.loadCommitment (h.newCommitment x).2 =
        .ok { message := x, isProtected := true } ∧
      (h.newCommitment x).1.open (h.newCommitment x).2 =
        .ok ([], some "commitment is protected") := by
  refine ⟨rfl, rfl, fun h => ?_⟩
  obtain ⟨ps, cs⟩ := h
  constructor
  · simp [Heap.newCommitment, Heap.allocCommitment, loadCommitment_append, commitment.new]
  · simp [Heap.newCommitment, Heap.allocCommitment, Heap.open, loadCommitment_append,
      bind, Except.bind, commitment.new, commitment.open, pure, Except.pure, errProtected]

/-- C5: for every commitment (any message, any flag), `open` returns the nil
error exactly when `isProtected` is false; with the flag false it returns the
message and no error, with the flag true it returns the nil value and the
error "commitment is protected". -/
theorem open_iff_not_protected (m : Bytes) :
    (∀ c : commitment, c.open.2 = none ↔ c.isProtected = false) ∧
    commitment.open { message := m, isProtected := false } = (m, none) ∧
    commitment.open { message := m, isProtected := true } =
      ([], some "commitment is protected") := by
  refine ⟨fun c => ?_, rfl, rfl⟩
  cases hc : c.isProtected <;> simp [commitment.open, hc]

/-- C6, the code at the failing input: the one-byte input `[7]` is non-empty,
and `retrievePin([7], 8)` is the one-character string "7", not a pin of the 8
characters that the claim and the docstring of `retrievePin` ("a pin of the
specified length") both promise. -/
theorem retrievePin_short_input :
    ([7] : Bytes) ≠ [] ∧ retrievePin [7] 8 = "7" ∧ (retrievePin [7] 8).length ≠ 8 := by
  decide

/-- C7: for every byte sequence `r` and every `maxLength` of at least 1,
`retrievePin(r, maxLength)` is the string whose characters are the decimal
digits of `r[i] mod 10` for the first `min(len(r), maxLength)` bytes of `r`; it
has that many characters, and it is the same as for the first `maxLength` bytes
of `r` alone. -/
theorem retrievePin_digits (r : Bytes) (n : Int) (hn : 1 ≤ n) :
    retrievePin r n =
      String.mk ((r.take n.toNat).map (fun b => Nat.digitChar (b.val % 10))) ∧
    (retrievePin r n).length = min r.length n.toNat ∧
    retrievePin r n = retrievePin (r.take n.toNat) n := by
  refine ⟨retrievePin_eq r n hn, ?_, ?_⟩
  · rw [retrievePin_eq r n hn]
    simp [String.length, Nat.min_comm]
  · rw [retrievePin_eq r n hn, retrievePin_eq _ n hn]
    simp [List.take_take]

/-- Witness for C7 at the three bytes 1, 22, 255 and `maxLength` 2. -/
theorem retrievePin_digits_witness :
    (1 : Int) ≤ 2 ∧
    (retrievePin [1, 22, 255] 2 =
        String.mk ((([1, 22, 255] : Bytes).take (2 : Int).toNat).map
          (fun b => Nat.digitChar (b.val % 10))) ∧
      (retrievePin [1, 22, 255] 2).length = min ([1, 22, 255] : Bytes).length (2 : Int).toNat ∧
      retrievePin [1, 22, 255] 2 = retrievePin (([1, 22, 255] : Bytes).take (2 : Int).toNat) 2) :=
  ⟨by decide, retrievePin_digits [1, 22, 255] 2 (by decide)⟩

/-- C8: for all 16-byte nonces and all messages, when every HMAC digest has 32
bytes, after the exchange `initiatorCheck` and `secondaryCheck` both return a
string of exactly 8 characters, each a decimal digit. -/
theorem pins_eight_digits (cr : Crypto) (h0 : Heap) (rA mA rB mB : Bytes)
    (hA : rA.length = 16) (hB : rB.length = 16)
    (hmac : ∀ k d, (cr.hmacSha256 k d).length = 32) :
    ∃ s pa pb, (mainSetup h0 rA mA rB mB).exchange = .ok s ∧
      s.heap.initiatorCheck cr s.alice = .ok pa ∧
      s.heap.secondaryCheck cr s.bob = .ok pb ∧
      pa.length = 8 ∧ (∀ c ∈ pa.data, c.isDigit = true) ∧
      pb.length = 8 ∧ (∀ c ∈ pb.data, c.isDigit = true) := by
  have hd : 8 ≤ (cr.hmacSha256 (cr.aesEncryptBlock rA rB) (mA ++ mB)).length := by
    rw [hmac]; decide
  obtain ⟨hlen, hdig⟩ := retrievePin_eight_digits _ hd
  refine ⟨_, retrievePin (cr.hmacSha256 (cr.aesEncryptBlock rA rB) (mA ++ mB)) 8,
    retrievePin (cr.hmacSha256 (cr.aesEncryptBlock rA rB) (mA ++ mB)) 8,
    exchange_mainSetup h0 rA mA rB mB, ?_, ?_, hlen, hdig, hlen, hdig⟩
  · simp [Heap.initiatorCheck, initiatorMac_exchanged cr h0 rA mA rB mB hA hB, bind,
      Except.bind, pure, Except.pure, HMAC.Sum]
  · simp [Heap.secondaryCheck, secondaryMac_exchanged cr h0 rA mA rB mB hA hB, bind,
      Except.bind, pure, Except.pure, HMAC.Sum]

/-- Witness for C8 at the demo nonces, messages and MAC, started in the empty
heap. -/
theorem pins_eight_digits_witness :
    demoRA.length = 16 ∧ demoRB.length = 16 ∧
    (∀ k d, (demoCrypto.hmacSha256 k d).length = 32) ∧
    ∃ s pa pb, (mainSetup Heap.empty demoRA demoMA demoRB demoMB).exchange = .ok s ∧
      s.heap.initiatorCheck demoCrypto s.alice = .ok pa ∧
      s.heap.secondaryCheck demoCrypto s.bob = .ok pb ∧
      pa.length = 8 ∧ (∀ c ∈ pa.data, c.isDigit = true) ∧
      pb.length = 8 ∧ (∀ c ∈ pb.data, c.isDigit = true) :=
  ⟨by decide, by decide, fun k d => by simp [demoCrypto]; omega,
    pins_eight_digits demoCrypto Heap.empty demoRA demoMA demoRB demoMB (by decide) (by decide)
      (fun k d => by simp [demoCrypto]; omega)⟩

/-- C9 fails as stated: with the demo cipher and nonces, the key that
`secondaryCheck` hands to HMAC after the exchange is not the responder-keyed
encryption of the initiator nonce, `E(rB, rA)`; it is `E(rA, rB)`. -/
theorem secondaryCheck_key_not_own_nonce :
    ∃ s mb, (mainSetup Heap.empty demoRA demoMA demoRB demoMB).exchange = .ok s ∧
      s.heap.secondaryMac demoCrypto s.bob = .ok mb ∧
      mb.key ≠ demoCrypto.aesEncryptBlock demoRB demoRA ∧
      mb.key = demoCrypto.aesEncryptBlock demoRA demoRB :=
  ⟨_, _, rfl, rfl, by decide, by decide⟩

/-- C9, amended: for all 16-byte nonces and every block cipher `E`, after the
exchange both checks key their HMAC with `E(key = initiator nonce, block =
responder nonce)`: `initiatorCheck` encrypts the peer nonce under its own
nonce, `secondaryCheck` encrypts its own nonce under the opened peer nonce. -/
theorem session_keys (cr : Crypto) (h0 : Heap) (rA mA rB mB : Bytes)
    (hA : rA.length = 16) (hB : rB.length = 16) :
    ∃ s ma mb, (mainSetup h0 rA mA rB mB).exchange = .ok s ∧
      s.heap.initiatorMac cr s.alice = .ok ma ∧
      s.heap.secondaryMac cr s.bob = .ok mb ∧
      ma.key = cr.aesEncryptBlock rA rB ∧
      mb.key = cr.aesEncryptBlock rA rB :=
  ⟨_, _, _, exchange_mainSetup h0 rA mA rB mB, initiatorMac_exchanged cr h0 rA mA rB mB hA hB,
    secondaryMac_exchanged cr h0 rA mA rB mB hA hB, rfl, rfl⟩

/-- Witness for the amended C9 at the demo nonces and cipher. -/
theorem session_keys_witness :
    demoRA.length = 16 ∧ demoRB.length = 16 ∧
    ∃ s ma mb, (mainSetup Heap.empty demoRA demoMA demoRB demoMB).exchange = .ok s ∧
      s.heap.initiatorMac demoCrypto s.alice = .ok ma ∧
      s.heap.secondaryMac demoCrypto s.bob = .ok mb ∧
      ma.key = demoCrypto.aesEncryptBlock demoRA demoRB ∧
      mb.key = demoCrypto.aesEncryptBlock demoRA demoRB :=
  ⟨by decide, by decide,
    session_keys demoCrypto Heap.empty demoRA demoMA demoRB demoMB (by decide) (by decide)⟩

/-- C10: for all messages `mA` (initiator) and `mB` (responder) and all 16-byte
nonces, after the exchange the bytes written to the HMAC by `initiatorCheck`
and the bytes written to it by `secondaryCheck` are both `mA` followed by
`mB`. -/
theorem hmac_input_initiator_first (cr : Crypto) (h0 : Heap) (rA mA rB mB : Bytes)
    (hA : rA.length = 16) (hB : rB.length = 16) :
    ∃ s ma mb, (mainSetup h0 rA mA rB mB).exchange = .ok s ∧
      s.heap.initiatorMac cr s.alice = .ok ma ∧
      s.heap.secondaryMac cr s.bob = .ok mb ∧
      ma.written = mA ++ mB ∧
      mb.written = mA ++ mB :=
  ⟨_, _, _, exchange_mainSetup h0 rA mA rB mB, initiatorMac_exchanged cr h0 rA mA rB mB hA hB,
    secondaryMac_exchanged cr h0 rA mA rB mB hA hB, rfl, rfl⟩

/-- Witness for C10 at the demo nonces and messages. -/
theorem hmac_input_initiator_first_witness :
    demoRA.length = 16 ∧ demoRB.length = 16 ∧
    ∃ s ma mb, (mainSetup Heap.empty demoRA demoMA demoRB demoMB).exchange = .ok s ∧
      s.heap.initiatorMac demoCrypto s.alice = .ok ma ∧
      s.heap.secondaryMac demoCrypto s.bob = .ok mb ∧
      ma.written = demoMA ++ demoMB ∧
      mb.written = demoMA ++ demoMB :=
  ⟨by decide, by decide,
    hmac_input_initiator_first demoCrypto Heap.empty demoRA demoMA demoRB demoMB (by decide)
      (by decide)⟩

/-- C11: for every heap and every initiator `p` and responder `q` in it, after
`p.commitTo(q)` the commitment mirrored at `q` does not open (`open` returns the
error "commitment is protected"); `decommit` on the commitment of `p` returns,
leaves the persons as they are, and then `open` on the commitment mirrored at
`q` returns the nonce of `p` and no error. -/
theorem decommit_opens_mirror (h h1 : Heap) (p q : Ptr) (hc : h.commitTo p q = .ok h1) :
    ∃ vp vp1 vq1 vo1 h2,
      h.loadPerson p = .ok vp ∧ h1.loadPerson p = .ok vp1 ∧ vp1.r = vp.r ∧
      h1.loadPerson q = .ok vq1 ∧ h1.loadPerson vq1.other = .ok vo1 ∧
      h1.open vo1.commitment = .ok ([], some "commitment is protected") ∧
      h1.decommit vp1.commitment = .ok h2 ∧
      h2.loadPerson q = .ok vq1 ∧ h2.loadPerson vq1.other = .ok vo1 ∧
      h2.open vo1.commitment = .ok (vp.r, none) := by
  obtain ⟨vp, vq, vo, vp1, vq1, vo1, hp, -, -, hp1, hq1, ho1, eo, er, -, -, ec, eoc, -, -, -,
    hcm⟩ := commitTo_fields hc
  obtain ⟨h2, hd, hps, hl⟩ := decommit_load hcm
  have hpers : ∀ x, h2.loadPerson x = h1.loadPerson x := by
    intro x
    obtain ⟨ps2, cs2⟩ := h2
    obtain ⟨ps1, cs1⟩ := h1
    simp only at hps
    subst hps
    rfl
  refine ⟨vp, vp1, vq1, vo1, h2, hp, hp1, er, hq1, by rw [eo]; exact ho1, ?_, by rw [ec]; exact hd,
    by rw [hpers]; exact hq1, by rw [hpers, eo]; exact ho1, ?_⟩
  · rw [eoc, open_of_loadCommitment hcm]
    rfl
  · rw [eoc, open_of_loadCommitment (by rw [hl, if_pos rfl])]
    rfl

/-- Witness for C11 in the heap of `main` with the demo parties. -/
theorem decommit_opens_mirror_witness :
    ∃ h1, (mainSetup Heap.empty demoRA demoMA demoRB demoMB).heap.commitTo (some 1) (some 3) =
        .ok h1 ∧
      ∃ vp vp1 vq1 vo1 h2,
        (mainSetup Heap.empty demoRA demoMA demoRB demoMB).heap.loadPerson (some 1) = .ok vp ∧
        h1.loadPerson (some 1) = .ok vp1 ∧ vp1.r = vp.r ∧
        h1.loadPerson (some 3) = .ok vq1 ∧ h1.loadPerson vq1.other = .ok vo1 ∧
        h1.open vo1.commitment = .ok ([], some "commitment is protected") ∧
        h1.decommit vp1.commitment = .ok h2 ∧
        h2.loadPerson (some 3) = .ok vq1 ∧ h2.loadPerson vq1.other = .ok vo1 ∧
        h2.open vo1.commitment = .ok (vp.r, none) :=
  ⟨_, rfl,
    decommit_opens_mirror (mainSetup Heap.empty demoRA demoMA demoRB demoMB).heap _ (some 1)
      (some 3) rfl⟩

/-- C12: for every heap and every initiator `p` and peer `q` in it,
`p.commitTo(q)` sets the commitment pointer of `p` and the commitment pointer
of the mirror of `q` to one new commitment, which wraps the nonce of `p` and
is protected; it sets the message of the mirror of `q` to the message of `p`;
it leaves the nonce of the mirror of `q` (and the mirror pointer of `q`) as
they were. -/
theorem commitTo_effect (h h1 : Heap) (p q : Ptr) (hc : h.commitTo p q = .ok h1) :
    ∃ vp vq vo vp1 vq1 vo1,
      h.loadPerson p = .ok vp ∧ h.loadPerson q = .ok vq ∧ h.loadPerson vq.other = .ok vo ∧
      h1.loadPerson p = .ok vp1 ∧ h1.loadPerson q = .ok vq1 ∧ vq1.other = vq.other ∧
      h1.loadPerson vq.other = .ok vo1 ∧
      vp1.commitment = some h.commitments.length ∧
      vo1.commitment = some h.commitments.length ∧
      h1.loadCommitment (some h.commitments.length) =
        .ok { message := vp.r, isProtected := true } ∧
      vo1.msg = vp.msg ∧
      vo1.r = vo.r := by
  obtain ⟨vp, vq, vo, vp1, vq1, vo1, hp, hq, ho, hp1, hq1, ho1, eo, -, -, -, ec, eoc, em, er, -,
    hcm⟩ := commitTo_fields hc
  exact ⟨vp, vq, vo, vp1, vq1, vo1, hp, hq, ho, hp1, hq1, eo, ho1, ec, eoc, hcm, em, er⟩

/-- Witness for C12 in the heap of `main` with the demo parties. -/
theorem commitTo_effect_witness :
    ∃ h1, (mainSetup Heap.empty demoRA demoMA demoRB demoMB).heap.commitTo (some 1) (some 3) =
        .ok h1 ∧
      ∃ vp vq vo vp1 vq1 vo1,
        (mainSetup Heap.empty demoRA demoMA demoRB demoMB).heap.loadPerson (some 1) = .ok vp ∧
        (mainSetup Heap.empty demoRA demoMA demoRB demoMB).heap.loadPerson (some 3) = .ok vq ∧
        (mainSetup Heap.empty demoRA demoMA demoRB demoMB).heap.loadPerson vq.other = .ok vo ∧
        h1.loadPerson (some 1) = .ok vp1 ∧ h1.loadPerson (some 3) = .ok vq1 ∧
        vq1.other = vq.other ∧
        h1.loadPerson vq.other = .ok vo1 ∧
        vp1.commitment =
          some (mainSetup Heap.empty demoRA demoMA demoRB demoMB).heap.commitments.length ∧
        vo1.commitment =
          some (mainSetup Heap.empty demoRA demoMA demoRB demoMB).heap.commitments.length ∧
        h1.loadCommitment
            (some (mainSetup Heap.empty demoRA demoMA demoRB demoMB).heap.commitments.length) =
          .ok { message := vp.r, isProtected := true } ∧
        vo1.msg = vp.msg ∧
        vo1.r = vo.r :=
  ⟨_, rfl,
    commitTo_effect (mainSetup Heap.empty demoRA demoMA demoRB demoMB).heap _ (some 1) (some 3)
      rfl⟩

/-- C13: for every heap and every responder `p` and peer `q` in it,
`p.sendTo(q)` sets the message and the nonce of the mirror of `q` to the
message and the nonce of `p` and writes nothing else: the commitment pointer
and the mirror pointer of that mirror stay, every other person and every
commitment is as before, `p` has all its fields as before, and `q` keeps its
commitment pointer and its mirror pointer. -/
theorem sendTo_effect (h h1 : Heap) (p q : Ptr) (hs : h.sendTo p q = .ok h1) :
    ∃ vp vq vo vq1,
      h.loadPerson p = .ok vp ∧ h.loadPerson q = .ok vq ∧ h.loadPerson vq.other = .ok vo ∧
      h1.loadPerson vq.other =
        .ok { r := vp.r, msg := vp.msg, commitment := vo.commitment, other := vo.other } ∧
      (∀ x, x ≠ vq.other → h1.loadPerson x = h.loadPerson x) ∧
      h1.commitments = h.commitments ∧
      h1.loadPerson p = .ok vp ∧
      h1.loadPerson q = .ok vq1 ∧ vq1.commitment = vq.commitment ∧ vq1.other = vq.other := by
  obtain ⟨vp, vq, vo, hp, hq, ho, hcs, hx⟩ := sendTo_load hs
  have Hp : h1.loadPerson p = .ok vp := by
    rw [hx]
    by_cases a : p = vq.other
    · have hvo : vo = vp := by
        rw [← a, hp] at ho
        cases ho
        rfl
      subst hvo
      rw [if_pos a]
    · rw [if_neg a, hp]
  have Hq : ∃ vq1, h1.loadPerson q = .ok vq1 ∧ vq1.commitment = vq.commitment ∧
      vq1.other = vq.other := by
    rw [hx]
    by_cases b : q = vq.other
    · have hvo : vo = vq := by
        rw [← b, hq] at ho
        cases ho
        rfl
      subst hvo
      exact ⟨{ vo with msg := vp.msg, r := vp.r }, if_pos b, rfl, rfl⟩
    · exact ⟨vq, by rw [if_neg b, hq], rfl, rfl⟩
  obtain ⟨vq1, hq1, e1, e2⟩ := Hq
  refine ⟨vp, vq, vo, vq1, hp, hq, ho, ?_, fun x hne => ?_, hcs, Hp, hq1, e1, e2⟩
  · rw [hx, if_pos rfl]
  · rw [hx, if_neg hne]

/-- Witness for C13 in the heap of `main` with the demo parties: `bob` sends to
`alice`. -/
theorem sendTo_effect_witness :
    ∃ h1, (mainSetup Heap.empty demoRA demoMA demoRB demoMB).heap.sendTo (some 3) (some 1) =
        .ok h1 ∧
      ∃ vp vq vo vq1,
        (mainSetup Heap.empty demoRA demoMA demoRB demoMB).heap.loadPerson (some 3) = .ok vp ∧
        (mainSetup Heap.empty demoRA demoMA demoRB demoMB).heap.loadPerson (some 1) = .ok vq ∧
        (mainSetup Heap.empty demoRA demoMA demoRB demoMB).heap.loadPerson vq.other = .ok vo ∧
        h1.loadPerson vq.other =
          .ok { r := vp.r, msg := vp.msg, commitment := vo.commitment, other := vo.other } ∧
        (∀ x, x ≠ vq.other → h1.loadPerson x =
          (mainSetup Heap.empty demoRA demoMA demoRB demoMB).heap.loadPerson x) ∧
        h1.commitments = (mainSetup Heap.empty demoRA demoMA demoRB demoMB).heap.commitments ∧
        h1.loadPerson (some 3) = .ok vp ∧
        h1.loadPerson (some 1) = .ok vq1 ∧ vq1.commitment = vq.commitment ∧
        vq1.other = vq.other :=
  ⟨_, rfl,
    sendTo_effect (mainSetup Heap.empty demoRA demoMA demoRB demoMB).heap _ (some 3) (some 1)
      rfl⟩

/-- C14: for every commitment, `decommit` yields the commitment with the same
message and the flag `isProtected` false.  Through a pointer to a live
commitment in any heap the call returns, the commitment pointed to has the
same message and the flag false, and every other commitment and every person
is as before. -/
theorem decommit_clears_flag_only (h : Heap) (c : Ptr) (v : commitment)
    (hv : h.loadCommitment c = .ok v) :
    v.decommit.message = v.message ∧ v.decommit.isProtected = false ∧
    ∃ h1, h.decommit c = .ok h1 ∧
      h1.loadCommitment c = .ok { message := v.message, isProtected := false } ∧
      (∀ d, d ≠ c → h1.loadCommitment d = h.loadCommitment d) ∧
      h1.persons = h.persons := by
  obtain ⟨h1, hd, hps, hl⟩ := decommit_load hv
  refine ⟨rfl, rfl, h1, hd, ?_, fun d hne => ?_, hps⟩
  · rw [hl, if_pos rfl]
    rfl
  · rw [hl, if_neg hne]

/-- Witness for C14: the protected commitment of the demo nonce, alone in the
heap. -/
theorem decommit_clears_flag_only_witness :
    (Heap.empty.newCommitment demoRA).1.loadCommitment (some 0) = .ok (commitment.new demoRA) ∧
    ((commitment.new demoRA).decommit.message = (commitment.new demoRA).message ∧
      (commitment.new demoRA).decommit.isProtected = false ∧
      ∃ h1, (Heap.empty.newCommitment demoRA).1.decommit (some 0) = .ok h1 ∧
        h1.loadCommitment (some 0) =
          .ok { message := (commitment.new demoRA).message, isProtected := false } ∧
        (∀ d, d ≠ some 0 →
          h1.loadCommitment d = (Heap.empty.newCommitment demoRA).1.loadCommitment d) ∧
        h1.persons = (Heap.empty.newCommitment demoRA).1.persons) :=
  ⟨rfl, decommit_clears_flag_only (Heap.empty.newCommitment demoRA).1 (some 0)
    (commitment.new demoRA) rfl⟩

/-- C15: `decommit` is idempotent and leaves the commitment open.  On the
struct, decommitting twice gives what decommitting once gives, and `open` on
it returns the message and no error.  Through a pointer to a live commitment
in any heap, the first `decommit` returns a heap that a second `decommit`
returns unchanged, and `open` there returns the message and no error. -/
theorem decommit_idempotent (h : Heap) (c : Ptr) (v : commitment)
    (hv : h.loadCommitment c = .ok v) :
    v.decommit.decommit = v.decommit ∧
    v.decommit.decommit.open = (v.message, none) ∧
    ∃ h1, h.decommit c = .ok h1 ∧ h1.decommit c = .ok h1 ∧
      h1.open c = .ok (v.message, none) := by
  obtain ⟨h1, hd, hps, hl⟩ := decommit_load hv
  have hv1 : h1.loadCommitment c = .ok v.decommit := by rw [hl, if_pos rfl]
  obtain ⟨h2, hd2, hps2, hl2⟩ := decommit_load hv1
  have h21 : h2 = h1 := by
    obtain ⟨i, rfl, hi, hget⟩ := loadCommitment_ok hv1
    simp only [Heap.decommit, hv1, bind, Except.bind, Heap.setCommitment, if_pos hi,
      Except.ok.injEq] at hd2
    rw [← hd2]
    obtain ⟨ps1, cs1⟩ := h1
    simp only [Heap.mk.injEq, true_and]
    apply List.ext_getElem?
    intro j
    by_cases hji : i = j
    · subst hji
      simp only at hget
      simp [List.getElem?_set, hi, hget, commitment.decommit]
    · simp [List.getElem?_set, hji]
  refine ⟨rfl, rfl, h1, hd, ?_, ?_⟩
  · rw [h21] at hd2
    exact hd2
  · rw [open_of_loadCommitment hv1]
    rfl

/-- Witness for C15: the protected commitment of the demo nonce, alone in the
heap. -/
theorem decommit_idempotent_witness :
    (Heap.empty.newCommitment demoRA).1.loadCommitment (some 0) = .ok (commitment.new demoRA) ∧
    ((commitment.new demoRA).decommit.decommit = (commitment.new demoRA).decommit ∧
      (commitment.new demoRA).decommit.decommit.open = ((commitment.new demoRA).message, none) ∧
      ∃ h1, (Heap.empty.newCommitment demoRA).1.decommit (some 0) = .ok h1 ∧
        h1.decommit (some 0) = .ok h1 ∧
        h1.open (some 0) = .ok ((commitment.new demoRA).message, none)) :=
  ⟨rfl, decommit_idempotent (Heap.empty.newCommitment demoRA).1 (some 0)
    (commitment.new demoRA) rfl⟩

/-- C16: for all 16-byte nonces and all messages, after the exchange of `main`
neither check reaches a panic branch: in `initiatorCheck` the key handed to
`aes.NewCipher` (the own nonce) has 16 bytes and is accepted, and the block
handed to `Encrypt` (the mirrored nonce) has 16 bytes; in `secondaryCheck` the
mirrored commitment opens with no error, the key handed to `aes.NewCipher`
(the opened nonce) has 16 bytes and is accepted, and the block handed to
`Encrypt` (the own nonce) has 16 bytes; both checks return a pin. -/
theorem checks_reach_no_panic (cr : Crypto) (h0 : Heap) (rA mA rB mB : Bytes)
    (hA : rA.length = 16) (hB : rB.length = 16) :
    ∃ s va vao vb vbo aRand pa pb, (mainSetup h0 rA mA rB mB).exchange = .ok s ∧
      s.heap.loadPerson s.alice = .ok va ∧ s.heap.loadPerson va.other = .ok vao ∧
      va.r.length = 16 ∧ aesNewCipher va.r = .ok va.r ∧ vao.r.length = 16 ∧
      s.heap.loadPerson s.bob = .ok vb ∧ s.heap.loadPerson vb.other = .ok vbo ∧
      s.heap.open vbo.commitment = .ok (aRand, none) ∧
      aRand.length = 16 ∧ aesNewCipher aRand = .ok aRand ∧ vb.r.length = 16 ∧
      s.heap.initiatorCheck cr s.alice = .ok pa ∧
      s.heap.secondaryCheck cr s.bob = .ok pb := by
  refine ⟨_, person.mk rA mA (some h0.commitments.length) (some h0.persons.length),
    person.mk rB mB none none,
    person.mk rB mB none (some (h0.persons.length + 2)),
    person.mk [] mA (some h0.commitments.length) none,
    rA, retrievePin (cr.hmacSha256 (cr.aesEncryptBlock rA rB) (mA ++ mB)) 8,
    retrievePin (cr.hmacSha256 (cr.aesEncryptBlock rA rB) (mA ++ mB)) 8,
    exchange_mainSetup h0 rA mA rB mB, ?_, ?_, hA, ?_, hB, ?_, ?_, ?_, hA, ?_, hB, ?_, ?_⟩
  · simp [exchangedHeap, loadPerson_append]
  · simp [exchangedHeap, loadPerson_append_zero]
  · simp [aesNewCipher, hA]
  · simp [exchangedHeap, loadPerson_append]
  · simp [exchangedHeap, loadPerson_append]
  · simp [exchangedHeap, Heap.open, loadCommitment_append, bind, Except.bind, pure, Except.pure,
      commitment.open]
  · simp [aesNewCipher, hA]
  · simp [Heap.initiatorCheck, initiatorMac_exchanged cr h0 rA mA rB mB hA hB, bind,
      Except.bind, pure, Except.pure, HMAC.Sum]
  · simp [Heap.secondaryCheck, secondaryMac_exchanged cr h0 rA mA rB mB hA hB, bind,
      Except.bind, pure, Except.pure, HMAC.Sum]

/-- Witness for C16 at the demo nonces and messages, started in the empty heap. -/
theorem checks_reach_no_panic_witness :
    demoRA.length = 16 ∧ demoRB.length = 16 ∧
    ∃ s va vao vb vbo aRand pa pb,
      (mainSetup Heap.empty demoRA demoMA demoRB demoMB).exchange = .ok s ∧
      s.heap.loadPerson s.alice = .ok va ∧ s.heap.loadPerson va.other = .ok vao ∧
      va.r.length = 16 ∧ aesNewCipher va.r = .ok va.r ∧ vao.r.length = 16 ∧
      s.heap.loadPerson s.bob = .ok vb ∧ s.heap.loadPerson vb.other = .ok vbo ∧
      s.heap.open vbo.commitment = .ok (aRand, none) ∧
      aRand.length = 16 ∧ aesNewCipher aRand = .ok aRand ∧ vb.r.length = 16 ∧
      s.heap.initiatorCheck demoCrypto s.alice = .ok pa ∧
      s.heap.secondaryCheck demoCrypto s.bob = .ok pb :=
  ⟨by decide, by decide,
    checks_reach_no_panic demoCrypto Heap.empty demoRA demoMA demoRB demoMB (by decide)
      (by decide)⟩

/-- C17: for all nonces and messages, after any sequence of protocol operations
(`commitTo`, `sendTo`, `decommit`, `initiatorCheck`, `secondaryCheck`, applied
to the two parties of `main` in any order and any roles) each party still has
the nonce, the message and the mirror pointer that `newPerson` gave it, and the
variables of `main` still point to the same parties. -/
theorem parties_keep_nonce_and_message (cr : Crypto) (h0 : Heap) (rA mA rB mB : Bytes)
    (ops : List Op) (s : MainState)
    (hrun : (mainSetup h0 rA mA rB mB).run cr ops = .ok s) :
    s.alice = (mainSetup h0 rA mA rB mB).alice ∧ s.bob = (mainSetup h0 rA mA rB mB).bob ∧
    ∃ va vb, s.heap.loadPerson s.alice = .ok va ∧
      va.r = rA ∧ va.msg = mA ∧ va.other = some h0.persons.length ∧
      s.heap.loadPerson s.bob = .ok vb ∧
      vb.r = rB ∧ vb.msg = mB ∧ vb.other = some (h0.persons.length + 2) := by
  obtain ⟨ha, hb, va, vb, hva, ra, ma, oa, hvb, rb, mb, ob⟩ :=
    run_intact cr ops (mainSetup_intact h0 rA mA rB mB) hrun
  rw [mainSetup_eq]
  exact ⟨ha, hb, va, vb, by rw [ha]; exact hva, ra, ma, oa, by rw [hb]; exact hvb, rb, mb, ob⟩

/-- Witness for C17: the demo parties and the demo sequence of operations, which
runs through. -/
theorem parties_keep_nonce_and_message_witness :
    ∃ s, (mainSetup Heap.empty demoRA demoMA demoRB demoMB).run demoCrypto demoOps = .ok s ∧
      (s.alice = (mainSetup Heap.empty demoRA demoMA demoRB demoMB).alice ∧
        s.bob = (mainSetup Heap.empty demoRA demoMA demoRB demoMB).bob ∧
        ∃ va vb, s.heap.loadPerson s.alice = .ok va ∧
          va.r = demoRA ∧ va.msg = demoMA ∧ va.other = some Heap.empty.persons.length ∧
          s.heap.loadPerson s.bob = .ok vb ∧
          vb.r = demoRB ∧ vb.msg = demoMB ∧ vb.other = some (Heap.empty.persons.length + 2)) :=
  ⟨_, rfl,
    parties_keep_nonce_and_message demoCrypto Heap.empty demoRA demoMA demoRB demoMB demoOps _
      rfl⟩

/-- C18 fails as stated: on the responder that `newPerson` has just created in
the empty heap, `secondaryCheck` ends in the nil-pointer dereference of the
runtime, which is not the panic with the text "commitment is protected". -/
theorem secondaryCheck_fresh_not_protected_error :
    (Heap.empty.newPerson demoRB demoMB).1.secondaryCheck demoCrypto
        (Heap.empty.newPerson demoRB demoMB).2 = .error .nilDeref ∧
    (Heap.empty.newPerson demoRB demoMB).1.secondaryCheck demoCrypto
        (Heap.empty.newPerson demoRB demoMB).2 ≠ .error (.panic "commitment is protected") :=
  ⟨rfl, fun e => by cases e⟩

/-- C18, amended: on every responder freshly created by `newPerson`, in any
heap, with any nonce and message, `secondaryCheck` returns no pin: the mirrored
commitment pointer is nil and the call of `open` on it ends in the nil-pointer
dereference of the runtime. -/
theorem secondaryCheck_fresh_nil (cr : Crypto) (h0 : Heap) (r m : Bytes) :
    ∃ vp vo, (h0.newPerson r m).1.loadPerson (h0.newPerson r m).2 = .ok vp ∧
      (h0.newPerson r m).1.loadPerson vp.other = .ok vo ∧
      vo.commitment = none ∧
      (h0.newPerson r m).1.open vo.commitment = .error .nilDeref ∧
      (h0.newPerson r m).1.secondaryCheck cr (h0.newPerson r m).2 = .error .nilDeref := by
  rw [newPerson_eq]
  refine ⟨person.mk r m none (some h0.persons.length), person.zero, ?_, ?_, rfl, rfl, ?_⟩
  · simp [loadPerson_append]
  · simp [loadPerson_append_zero]
  · simp [Heap.secondaryCheck, Heap.secondaryMac, loadPerson_append, loadPerson_append_zero,
      bind, Except.bind, Heap.open, Heap.loadCommitment, person.zero]

/-- C19: for every live commitment and every finite sequence of `open` and
`decommit` calls on it, the sequence runs through; `open` leaves the heap as
it is; the message is the one before; the flag `isProtected` is true at the
end exactly when it was true before and no `decommit` is among the calls; once
the flag is false after some calls it is false after all later ones; and
`newCommitment` creates the commitment with the flag true. -/
theorem flag_cleared_only_by_decommit (h : Heap) (c : Ptr) (v : commitment)
    (ks : List CommitmentCall) (x : Bytes) (hv : h.loadCommitment c = .ok v) :
    h.call c .open = .ok h ∧
    (∃ h1, h.calls c ks = .ok h1 ∧
      h1.loadCommitment c =
        .ok { message := v.message,
              isProtected := v.isProtected && !decide (CommitmentCall.decommit ∈ ks) } ∧
      h1.persons = h.persons ∧
      ∀ d, d ≠ c → h1.loadCommitment d = h.loadCommitment d) ∧
    (∀ ks1 ks2 hm vm, ks = ks1 ++ ks2 → h.calls c ks1 = .ok hm →
      hm.loadCommitment c = .ok vm → vm.isProtected = false →
      ∃ h1, h.calls c ks = .ok h1 ∧ h1.loadCommitment c = .ok vm) ∧
    (h.newCommitment x).1.loadCommitment (h.newCommitment x).2 =
      .ok { message := x, isProtected := true } := by
  refine ⟨?_, calls_load ks hv, ?_, ?_⟩
  · simp [Heap.call, open_of_loadCommitment hv, bind, Except.bind, pure, Except.pure]
  · intro ks1 ks2 hm vm hks hrun hvm hflag
    obtain ⟨h1, hrun2, hl, -, -⟩ := calls_load ks2 hvm
    refine ⟨h1, ?_, ?_⟩
    · rw [hks, calls_append, hrun]
      exact hrun2
    · rw [hl, hflag]
      cases vm
      simp only at hflag
      simp [hflag]
  · obtain ⟨ps, cs⟩ := h
    simp [Heap.newCommitment, Heap.allocCommitment, loadCommitment_append, commitment.new]

/-- Witness for C19: the protected commitment of the demo nonce, alone in the
heap, with the calls `open`, `decommit`, `open`. -/
theorem flag_cleared_only_by_decommit_witness :
    (Heap.empty.newCommitment demoRA).1.loadCommitment (some 0) = .ok (commitment.new demoRA) ∧
    ((Heap.empty.newCommitment demoRA).1.call (some 0) .open =
        .ok (Heap.empty.newCommitment demoRA).1 ∧
      (∃ h1, (Heap.empty.newCommitment demoRA).1.calls (some 0) [.open, .decommit, .open] =
          .ok h1 ∧
        h1.loadCommitment (some 0) =
          .ok { message := (commitment.new demoRA).message,
                isProtected := (commitment.new demoRA).isProtected &&
                  !decide (CommitmentCall.decommit ∈
                    [CommitmentCall.open, CommitmentCall.decommit, CommitmentCall.open]) } ∧
        h1.persons = (Heap.empty.newCommitment demoRA).1.persons ∧
        ∀ d, d ≠ some 0 →
          h1.loadCommitment d = (Heap.empty.newCommitment demoRA).1.loadCommitment d) ∧
      (∀ ks1 ks2 hm vm,
        [CommitmentCall.open, CommitmentCall.decommit, CommitmentCall.open] = ks1 ++ ks2 →
        (Heap.empty.newCommitment demoRA).1.calls (some 0) ks1 = .ok hm →
        hm.loadCommitment (some 0) = .ok vm → vm.isProtected = false →
        ∃ h1, (Heap.empty.newCommitment demoRA).1.calls (some 0) [.open, .decommit, .open] =
            .ok h1 ∧
          h1.loadCommitment (some 0) = .ok vm) ∧
      ((Heap.empty.newCommitment demoRA).1.newCommitment demoMA).1.loadCommitment
          ((Heap.empty.newCommitment demoRA).1.newCommitment demoMA).2 =
        .ok { message := demoMA, isProtected := true }) :=
  ⟨rfl, flag_cleared_only_by_decommit (Heap.empty.newCommitment demoRA).1 (some 0)
    (commitment.new demoRA) [.open, .decommit, .open] demoMA rfl⟩

/-- C20: for every byte sequence `r` and every `maxLength` of 0 or less, the
length test of `retrievePin` never succeeds: the result has one digit for each
byte of `r`, the digit of `r[i] mod 10`, so it has `len(r)` characters and is
not the empty string when `r` is not empty. -/
theorem retrievePin_nonpositive (r : Bytes) (n : Int) (hn : n ≤ 0) :
    retrievePin r n = String.mk (r.map (fun b => Nat.digitChar (b.val % 10))) ∧
    (retrievePin r n).length = r.length ∧
    (r ≠ [] → retrievePin r n ≠ "") := by
  have h : retrievePin r n = String.mk (r.map (fun b => Nat.digitChar (b.val % 10))) := by
    have := retrievePinLoop_no_stop n r "" (by simpa using hn)
    simpa [retrievePin] using this
  refine ⟨h, ?_, fun hr he => ?_⟩
  · rw [h]
    simp [String.length]
  · rw [h] at he
    have hdata := congrArg String.data he
    simp at hdata
    exact hr hdata

/-- Witness for C20 at the three bytes 1, 22, 255 and `maxLength` 0. -/
theorem retrievePin_nonpositive_witness :
    (0 : Int) ≤ 0 ∧
    (retrievePin [1, 22, 255] 0 =
        String.mk (([1, 22, 255] : Bytes).map (fun b => Nat.digitChar (b.val % 10))) ∧
      (retrievePin [1, 22, 255] 0).length = ([1, 22, 255] : Bytes).length ∧
      (([1, 22, 255] : Bytes) ≠ [] → retrievePin [1, 22, 255] 0 ≠ "")) :=
  ⟨by decide, retrievePin_nonpositive [1, 22, 255] 0 (by decide)⟩

end SAS
